import Mathlib

/-!
Verification of the rename pipeline of rename/rename.py.

The embedding models Python strings as lists of characters, pathlib paths as
a parent directory string together with a file name, Python datetime values as
records of calendar fields plus a UTC offset in minutes, and the filesystem /
exiftool environment of one file as an Entry record (file name, is-file flag,
content bytes, exiftool stdout, stat st_ctime converted to a naive local
datetime).  The process-wide LOCAL_TZ singleton is threaded through as an
explicit offset argument.  Python's hash of the file content is modelled by
the content itself (a deterministic fingerprint of the content; hash
collisions are not modelled).  All functions are executable.
-/

set_option autoImplicit false

namespace Rename

/-- Decimal digit character, as produced by Python string formatting of a
digit value below ten. -/
def digitChar : Nat → Char
  | 0 => '0' | 1 => '1' | 2 => '2' | 3 => '3' | 4 => '4'
  | 5 => '5' | 6 => '6' | 7 => '7' | 8 => '8' | _ => '9'

/-- Fuel-driven helper for the decimal representation of a natural number.
The fuel only serves structural termination; natDigits supplies enough. -/
def natDigitsAux : Nat → Nat → List Char
  | 0, n => [digitChar n]
  | fuel + 1, n =>
      if n < 10 then [digitChar n]
      else natDigitsAux fuel (n / 10) ++ [digitChar (n % 10)]

/-- Decimal representation of a natural number, as Python f-string formatting
of a nonnegative int renders it. -/
def natDigits (n : Nat) : List Char := natDigitsAux n n

/-- Zero-padded decimal of width w, as Python strftime zero-padded fields. -/
def padZ (w : Nat) (n : Nat) : List Char :=
  List.replicate (w - (natDigits n).length) '0' ++ natDigits n

/-- Naive datetime: the six calendar fields of a Python datetime with no
timezone attached (as produced by strptime or fromtimestamp). -/
structure NaiveDatetime where
  year : Nat
  month : Nat
  day : Nat
  hour : Nat
  minute : Nat
  second : Nat
  deriving DecidableEq, Repr

/-- Aware datetime: calendar fields plus the UTC offset in minutes attached by
LOCAL_TZ.localize. -/
structure Datetime where
  year : Nat
  month : Nat
  day : Nat
  hour : Nat
  minute : Nat
  second : Nat
  offMin : Int
  deriving DecidableEq, Repr

/-- Validity of the naive fields, as enforced by the Python datetime
constructor (datetime.MINYEAR = 1, datetime.MAXYEAR = 9999). -/
def NaiveDatetime.valid (d : NaiveDatetime) : Prop :=
  1 ≤ d.year ∧ d.year ≤ 9999 ∧ 1 ≤ d.month ∧ d.month ≤ 12 ∧
    1 ≤ d.day ∧ d.day ≤ 31 ∧ d.hour ≤ 23 ∧ d.minute ≤ 59 ∧ d.second ≤ 59

instance (d : NaiveDatetime) : Decidable d.valid := by
  unfold NaiveDatetime.valid; infer_instance

/-- Validity of an aware datetime: valid fields and a tzinfo offset strictly
inside one day, as Python requires of utcoffset values. -/
def Datetime.valid (d : Datetime) : Prop :=
  1 ≤ d.year ∧ d.year ≤ 9999 ∧ 1 ≤ d.month ∧ d.month ≤ 12 ∧
    1 ≤ d.day ∧ d.day ≤ 31 ∧ d.hour ≤ 23 ∧ d.minute ≤ 59 ∧ d.second ≤ 59 ∧
    d.offMin.natAbs ≤ 1439

instance (d : Datetime) : Decidable d.valid := by
  unfold Datetime.valid; infer_instance

/-- Localization of a naive datetime: LOCAL_TZ.localize attaches the local
zone, modelled as attaching the local UTC offset in minutes. -/
def localize (off : Int) (d : NaiveDatetime) : Datetime :=
  ⟨d.year, d.month, d.day, d.hour, d.minute, d.second, off⟩

/-- UTC offset rendered by strftime directive percent-z: a sign followed by
two zero-padded digits of hours and two of minutes. -/
def fmtOffset (off : Int) : List Char :=
  (if off < 0 then '-' else '+') :: (padZ 2 (off.natAbs / 60) ++ padZ 2 (off.natAbs % 60))

/-- Datetime rendering of strftime format "YYYYMMDD HHMMSS offset" used for
target names (File.get_target) and by get_date tests. -/
def fmtDate (d : Datetime) : List Char :=
  padZ 4 d.year ++ (padZ 2 d.month ++ (padZ 2 d.day ++
    (' ' :: (padZ 2 d.hour ++ (padZ 2 d.minute ++ (padZ 2 d.second ++
      (' ' :: fmtOffset d.offMin)))))))

/-- Filesystem path, as a pathlib path of the form parent / name: the parent
directory (kept abstract as a string) and the file name. -/
structure FsPath where
  parent : String
  name : List Char
  deriving DecidableEq, Repr

/-- Index of the last dot of a name, if any (the basis of pathlib's
suffix/stem split). -/
def lastDot : List Char → Option Nat
  | [] => none
  | c :: cs =>
      match lastDot cs with
      | some i => some (i + 1)
      | none => if c = '.' then some 0 else none

/-- Suffix of a path, following pathlib: the part of the name from its last
dot, provided that dot is neither the first nor the last character. -/
def FsPath.suffix (p : FsPath) : List Char :=
  match lastDot p.name with
  | some i => if 0 < i ∧ i + 1 < p.name.length then p.name.drop i else []
  | none => []

/-- Stem of a path, following pathlib: the name with its suffix removed. -/
def FsPath.stem (p : FsPath) : List Char :=
  match lastDot p.name with
  | some i => if 0 < i ∧ i + 1 < p.name.length then p.name.take i else p.name
  | none => p.name

/-- Directory entry: everything the program can observe about one name of the
scanned directory.  The exifOut field is the stdout text of the subprocess
run of exiftool with the CreateDate and -s -s -s arguments; ctime is the stat
st_ctime converted by datetime.fromtimestamp to a naive local datetime. -/
structure Entry where
  name : List Char
  isFile : Bool
  content : List Nat
  exifOut : List Char
  ctime : NaiveDatetime
  deriving DecidableEq, Repr

/-- Digit test on the code point, equivalent to the ASCII digit class of the
strptime regexes. -/
def digitB (c : Char) : Bool := 48 ≤ c.toNat && c.toNat ≤ 57

/-- Consume exactly four digit characters, as the strptime regex of the
percent-Y directive does. -/
def take4 : List Char → Option (Nat × List Char)
  | a :: b :: c :: d :: rest =>
      if digitB a && digitB b && digitB c && digitB d then
        some ((((a.toNat - 48) * 10 + (b.toNat - 48)) * 10 + (c.toNat - 48)) * 10
          + (d.toNat - 48), rest)
      else none
  | _ => none

/-- Consume one or two digit characters greedily, as the strptime regexes of
the two-digit directives do. -/
def take12 : List Char → Option (Nat × List Char)
  | [] => none
  | a :: rest =>
      if digitB a then
        match rest with
        | b :: rest2 =>
            if digitB b then some ((a.toNat - 48) * 10 + (b.toNat - 48), rest2)
            else some (a.toNat - 48, rest)
        | [] => some (a.toNat - 48, [])
      else none

/-- Consume a literal character. -/
def expectCh (c : Char) : List Char → Option (List Char)
  | x :: rest => if x = c then some rest else none
  | [] => none

/-- Whitespace in the sense of the strptime pattern machinery. -/
def isWsCh (c : Char) : Bool :=
  c = ' ' || c = '\t' || c = '\n' || c = '\r' || c = '\x0b' || c = '\x0c'

/-- Consume a nonempty whitespace run, as whitespace in a strptime format
string matches one or more whitespace characters. -/
def skipWs1 : List Char → Option (List Char)
  | x :: rest => if isWsCh x then some (rest.dropWhile isWsCh) else none
  | [] => none

/-- Length of a month, with the Gregorian leap rule, as validated by the
Python datetime constructor. -/
def daysInMonth (y mo : Nat) : Nat :=
  if mo = 2 then
    if y % 4 = 0 ∧ (y % 100 ≠ 0 ∨ y % 400 = 0) then 29 else 28
  else if mo = 4 ∨ mo = 6 ∨ mo = 9 ∨ mo = 11 then 30
  else 31

/-- Model of datetime.strptime with the format "Y:m:d H:M:S" followed by a
newline: four digits of year, one or two digits of the other fields, literal
colons, whitespace runs for the blank and the newline, the whole string
consumed, and the field ranges validated as the datetime constructor does. -/
def strptimeCreateDate (cs : List Char) : Option NaiveDatetime := do
  let (y, cs) ← take4 cs
  let cs ← expectCh ':' cs
  let (mo, cs) ← take12 cs
  let cs ← expectCh ':' cs
  let (da, cs) ← take12 cs
  let cs ← skipWs1 cs
  let (h, cs) ← take12 cs
  let cs ← expectCh ':' cs
  let (mi, cs) ← take12 cs
  let cs ← expectCh ':' cs
  let (s, cs) ← take12 cs
  let cs ← skipWs1 cs
  if cs = [] ∧ 1 ≤ y ∧ 1 ≤ mo ∧ mo ≤ 12 ∧ 1 ≤ da ∧ da ≤ daysInMonth y mo ∧
      h ≤ 23 ∧ mi ≤ 59 ∧ s ≤ 59 then
    some ⟨y, mo, da, h, mi, s⟩
  else none

/-- Record of one file under management, as the File dataclass: current path,
content fingerprint, creation date, candidate target, disambiguation index
starting at 1, and the resolved flag gating renames. -/
structure File where
  path : FsPath
  hash_ : List Nat
  date : Datetime
  target : FsPath
  index : Nat
  resolved : Bool
  deriving DecidableEq, Repr

/-- Fingerprint of the file content, as File.get_hash hashing the full
content; the deterministic digest is modelled by the content itself. -/
def File.get_hash (content : List Nat) : List Nat := content

/-- Creation date of a file, as File.get_date: run exiftool asking for the
CreateDate field, try to strptime its stdout, fall back to the stat st_ctime
on a parse failure, and localize the result with the local timezone. -/
def File.get_date (off : Int) (e : Entry) : Datetime :=
  match strptimeCreateDate e.exifOut with
  | some d => localize off d
  | none => localize off e.ctime

/-- Candidate target path, as File.get_target: the formatted date, with the
index appended unless unique is requested, carrying the extension, joined to
the parent directory of the current path. -/
def File.get_target (f : File) (unique : Bool) : FsPath :=
  if unique then ⟨f.path.parent, fmtDate f.date ++ f.path.suffix⟩
  else ⟨f.path.parent, fmtDate f.date ++ (' ' :: (natDigits f.index ++ f.path.suffix))⟩

/-- Collision step, as File.increment_target: add one to the index, then
recompute the (non-unique) target. -/
def File.increment_target (f : File) : File :=
  let f' : File := { f with index := f.index + 1 }
  { f' with target := f'.get_target false }

/-- Record construction, as File.__post_init__: compute the fingerprint, the
date, and the initial target at index 1 with resolved cleared. -/
def File.build (off : Int) (dir : String) (e : Entry) : File :=
  let path : FsPath := ⟨dir, e.name⟩
  let f0 : File :=
    ⟨path, File.get_hash e.content, File.get_date off e, ⟨dir, []⟩, 1, false⟩
  { f0 with target := f0.get_target false }

/-- The error conditions raised by the manager: DuplicateNotRemovedError,
TargetNotResolvedError and NoFileToRenameError. -/
inductive RenameError where
  | duplicateNotRemoved
  | targetNotResolved
  | noFileToRename
  deriving DecidableEq, Repr

/-- Manager of File records, as the FileManager dataclass. -/
structure FileManager where
  path : String
  files : List File
  deriving DecidableEq, Repr

/-- Directory scan, as FileManager.list_files: one File per plain file of the
directory listing, in listing order, sub-entries that are not plain files
skipped. -/
def FileManager.list_files (off : Int) (dir : String) (entries : List Entry) : List File :=
  (entries.filter (fun e => e.isFile)).map (File.build off dir)

/-- Manager construction, as FileManager.__post_init__: scan the directory
and fail with NoFileToRenameError when no plain file was found. -/
def FileManager.build (off : Int) (dir : String) (entries : List Entry) :
    Except RenameError FileManager :=
  let files := FileManager.list_files off dir entries
  if files.length = 0 then .error .noFileToRename else .ok ⟨dir, files⟩

/-- Single pass of FileManager.find_duplicates over the remaining records,
carrying the list of fingerprints seen so far. -/
def findDupAux (hashes : List (List Nat)) : List File → List File
  | [] => []
  | f :: fs =>
      if f.hash_ ∈ hashes then f :: findDupAux hashes fs
      else findDupAux (hashes ++ [f.hash_]) fs

/-- Duplicate scan, as FileManager.find_duplicates: records whose fingerprint
was already seen earlier in the pass, in scan order. -/
def FileManager.find_duplicates (m : FileManager) : List File :=
  findDupAux [] m.files

/-- In-memory removal, as FileManager.remove_duplicates: list.remove of the
first matching record for each given duplicate, in order. -/
def FileManager.remove_duplicates (m : FileManager) (dups : List File) : FileManager :=
  { m with files := dups.foldl (fun fs d => fs.erase d) m.files }

/-- Deletion loop of FileManager.delete_duplicates: for each given record, in
order, raise DuplicateNotRemovedError if it is still an element of the
managed list, otherwise delete the file at its path.  Returns the list of
deleted paths and the error, if one was raised. -/
def deleteLoop (files : List File) : List File → List FsPath × Option RenameError
  | [] => ([], none)
  | d :: ds =>
      if d ∈ files then ([], some .duplicateNotRemoved)
      else
        let r := deleteLoop files ds
        (d.path :: r.1, r.2)

/-- Physical duplicate deletion, as FileManager.delete_duplicates. -/
def FileManager.delete_duplicates (m : FileManager) (dups : List File) :
    List FsPath × Option RenameError :=
  deleteLoop m.files dups

/-- Collision loop of resolve_targets phase one: while the current target is
already assigned, increment.  The fuel argument only bounds the repetition
structurally; the caller passes enough for the loop to reach a free name. -/
def bumpFree (ts : List FsPath) : Nat → File → File
  | 0, f => f
  | fuel + 1, f => if f.target ∈ ts then bumpFree ts fuel f.increment_target else f

/-- Phase one of FileManager.resolve_targets: process the records in order,
bumping each off the targets assigned so far, then appending its target. -/
def phase1 : List File → List FsPath → List File
  | [], _ => []
  | f :: fs, ts =>
      let f' := bumpFree ts (ts.length + 1) f
      f' :: phase1 fs (ts ++ [f'.target])

/-- Phase two of FileManager.resolve_targets, for one record: when the index
is still 1, build the sibling name with the last stem character replaced by
the digit 2, and when that sibling is not among the assigned targets rewrite
the target to the unique (suffix-free) form; finally set the resolved flag. -/
def phase2File (ts : List FsPath) (f : File) : File :=
  let f' :=
    if f.index = 1 then
      let sib : FsPath := ⟨f.target.parent, (f.target.stem.dropLast ++ ['2']) ++ f.target.suffix⟩
      if sib ∈ ts then f else { f with target := f.get_target true }
    else f
  { f' with resolved := true }

/-- Both phases of FileManager.resolve_targets over a record list. -/
def resolveTargets (files : List File) : List File :=
  let fs1 := phase1 files []
  fs1.map (phase2File (fs1.map (fun g => g.target)))

/-- Target resolution, as FileManager.resolve_targets. -/
def FileManager.resolve_targets (m : FileManager) : FileManager :=
  { m with files := resolveTargets m.files }

/-- Rename loop of FileManager.rename_files: for each record in order, raise
TargetNotResolvedError if it is not resolved, otherwise move the file from
its path to its target.  Returns the performed moves and the error, if one
was raised; the records themselves are not modified by the loop. -/
def renameLoop : List File → List (FsPath × FsPath) × Option RenameError
  | [] => ([], none)
  | f :: fs =>
      if f.resolved = false then ([], some .targetNotResolved)
      else
        let r := renameLoop fs
        ((f.path, f.target) :: r.1, r.2)

/-- Rename pass, as FileManager.rename_files: raise NoFileToRenameError on an
empty (already depleted) record list, otherwise run the rename loop and, on
full success, clear the record list.  Returns the manager state after the
call, the performed moves, and the error, if one was raised. -/
def FileManager.rename_files (m : FileManager) :
    FileManager × List (FsPath × FsPath) × Option RenameError :=
  if m.files.length = 0 then (m, [], some .noFileToRename)
  else
    let r := renameLoop m.files
    match r.2 with
    | none => ({ m with files := [] }, r.1, none)
    | some e => (m, r.1, some e)

/-- Days from the civil epoch 1970-01-01 of a Gregorian calendar date, the
standard days-from-civil computation; used only to state the timestamp
ordering the specification asserts. -/
def daysFromCivil (y mo d : Nat) : Int :=
  let y' : Int := (y : Int) - (if mo ≤ 2 then 1 else 0)
  let era : Int := (if 0 ≤ y' then y' else y' - 399) / 400
  let yoe : Int := y' - era * 400
  let doy : Int := (153 * ((mo : Int) + (if 2 < mo then -3 else 9)) + 2) / 5 + (d : Int) - 1
  let doe : Int := yoe * 365 + yoe / 4 - yoe / 100 + doy
  era * 146097 + doe - 719468

/-- Instant of an aware datetime in seconds from the epoch, the quantity
Python compares when ordering aware datetimes. -/
def Datetime.instant (d : Datetime) : Int :=
  daysFromCivil d.year d.month d.day * 86400
    + ((d.hour * 3600 + d.minute * 60 + d.second : Nat) : Int) - d.offMin * 60

/-- Modelled from the spec: the Record total order "(timestamp, sequence)
ascending" that the specification claims construction sorts by; the source
File class defines no ordering, so the order is taken from the spec's words
(timestamp compared as Python compares aware datetimes, then the sequence
index). -/
def specRecordLE (f g : File) : Prop :=
  f.date.instant < g.date.instant ∨
    (f.date.instant = g.date.instant ∧ f.index ≤ g.index)

instance (f g : File) : Decidable (specRecordLE f g) := by
  unfold specRecordLE; infer_instance

/-! ### Derived definitions used by the proofs -/

/-- Value of a digit string under a left fold, used to decode decimal
renderings. -/
def valFrom : Nat → List Char → Nat
  | a, [] => a
  | a, c :: cs => valFrom (a * 10 + (c.toNat - 48)) cs

/-- Digit character predicate (code points of 0 through 9). -/
def isDigitCh (c : Char) : Prop := 48 ≤ c.toNat ∧ c.toNat ≤ 57

instance (c : Char) : Decidable (isDigitCh c) := by
  unfold isDigitCh; infer_instance

/-- Shape of every value pathlib's suffix can produce: empty, or a dot
followed by a nonempty dot-free tail. -/
def SuffixShaped (s : List Char) : Prop :=
  s = [] ∨ ∃ t, s = '.' :: t ∧ t ≠ [] ∧ ('.' : Char) ∉ t

/-- Collision key of a record: the data its candidate target names depend on
besides the index. -/
abbrev Key := String × List Char × List Char

/-- Collision key of a record. -/
def keyOf (f : File) : Key := (f.path.parent, fmtDate f.date, f.path.suffix)

/-- Suffixed candidate name of a key at an index. -/
def nameAt (k : Key) (ix : Nat) : FsPath :=
  ⟨k.1, k.2.1 ++ (' ' :: (natDigits ix ++ k.2.2))⟩

/-- Unique (suffix-free) candidate name of a key. -/
def nameUniq (k : Key) : FsPath := ⟨k.1, k.2.1 ++ k.2.2⟩

/-- Well-formedness of a key: a 21-character dot-free formatted date and a
pathlib-shaped extension. -/
def KeyGood (k : Key) : Prop :=
  k.2.1.length = 21 ∧ ('.' : Char) ∉ k.2.1 ∧ SuffixShaped k.2.2

/-- Default record used with positional list access. -/
def dfl : File := ⟨⟨"", []⟩, [], ⟨1970, 1, 1, 0, 0, 0, 0⟩, ⟨"", []⟩, 1, false⟩

/-- Number of records of the given key in a list. -/
def cntKey (l : List File) (k : Key) : Nat :=
  l.countP (fun g => decide (keyOf g = k))

/-- Rank of the record at a position: one plus the number of earlier records
sharing its key. -/
def rnk (files : List File) (j : Nat) : Nat :=
  1 + cntKey (files.take j) (keyOf (files.getD j dfl))

/-- Record state after phase one at a given rank. -/
def setIdx (f : File) (r : Nat) : File :=
  { f with index := r, target := nameAt (keyOf f) r }

/-- Targets assigned by phase one to the first n records. -/
def tsRange (files : List File) (n : Nat) : List FsPath :=
  (List.range n).map (fun j => nameAt (keyOf (files.getD j dfl)) (rnk files j))

/-- Final record state after both phases of target resolution. -/
def finalForm (files : List File) (j : Nat) : File :=
  let f := files.getD j dfl
  let k := keyOf f
  if cntKey files k ≤ 1 then { f with index := rnk files j, target := nameUniq k, resolved := true }
  else { f with index := rnk files j, target := nameAt k (rnk files j), resolved := true }

/-- One rename pass viewed as a state step, used to speak about repeated
invocations of rename_files. -/
def stepRename (m : FileManager) : FileManager := m.rename_files.1

/-- Records sharing both the timestamp and the extension of a given record —
the grouping target resolution actually works with. -/
def sameStamp (g x : File) : Bool :=
  decide (x.date = g.date ∧ x.path.suffix = g.path.suffix)

/-! ### Concrete values used for witnesses and counterexamples -/

/-- Sample aware datetime (the create date of the repository's first test
sample, in the Sao Paulo zone). -/
def demoDate : Datetime := ⟨2008, 5, 30, 15, 56, 1, -180⟩

/-- Resolved record whose path differs from its target. -/
def fileA : File := ⟨⟨"d", "a.jpg".toList⟩, [1], demoDate, ⟨"d", "ta.jpg".toList⟩, 1, true⟩

/-- Unresolved record. -/
def fileB : File := ⟨⟨"d", "b.jpg".toList⟩, [2], demoDate, ⟨"d", "tb.jpg".toList⟩, 1, false⟩

/-- Another resolved record. -/
def fileC : File := ⟨⟨"d", "c.jpg".toList⟩, [3], demoDate, ⟨"d", "tc.jpg".toList⟩, 1, true⟩

/-- First of three records with identical content fingerprints. -/
def fileD1 : File := ⟨⟨"d", "x.jpg".toList⟩, [7], demoDate, ⟨"d", "tx.jpg".toList⟩, 1, false⟩

/-- Second record with the same fingerprint as fileD1. -/
def fileD2 : File := ⟨⟨"d", "y.jpg".toList⟩, [7], demoDate, ⟨"d", "ty.jpg".toList⟩, 1, false⟩

/-- Third record with the same fingerprint as fileD1. -/
def fileD3 : File := ⟨⟨"d", "z.jpg".toList⟩, [7], demoDate, ⟨"d", "tz.jpg".toList⟩, 1, false⟩

/-- Directory entry with an exif create date. -/
def demoEntryA : Entry :=
  ⟨"a.jpg".toList, true, [1], "2008:05:30 15:56:01\n".toList, ⟨2006, 1, 2, 3, 4, 5⟩⟩

/-- Entry with the same create date and extension as demoEntryA but other
content. -/
def demoEntryB : Entry :=
  ⟨"b.jpg".toList, true, [2], "2008:05:30 15:56:01\n".toList, ⟨2006, 1, 2, 3, 4, 5⟩⟩

/-- Two-entry directory whose files collide on the formatted date. -/
def demoEntries : List Entry := [demoEntryA, demoEntryB]

/-- Manager built over demoEntries. -/
def demoManager : FileManager := ⟨"d", FileManager.list_files (-180) "d" demoEntries⟩

/-- Entry carrying the later create date, listed first. -/
def entryLate : Entry :=
  ⟨"p.jpg".toList, true, [3], "2010:06:01 10:00:00\n".toList, ⟨2011, 1, 1, 0, 0, 0⟩⟩

/-- Entry carrying the earlier create date, listed second. -/
def entryEarly : Entry :=
  ⟨"q.jpg".toList, true, [4], "2005:06:01 10:00:00\n".toList, ⟨2011, 1, 1, 0, 0, 0⟩⟩

/-- Directory listing that is not ordered by timestamp. -/
def orderEntries : List Entry := [entryLate, entryEarly]

/-- Manager built over orderEntries. -/
def orderManager : FileManager := ⟨"d", FileManager.list_files (-180) "d" orderEntries⟩

/-- Entry with a jpg extension. -/
def mixedExtA : Entry :=
  ⟨"a.jpg".toList, true, [5], "2008:05:30 15:56:01\n".toList, ⟨2006, 1, 2, 3, 4, 5⟩⟩

/-- Entry with the same create date as mixedExtA but a png extension. -/
def mixedExtB : Entry :=
  ⟨"b.png".toList, true, [6], "2008:05:30 15:56:01\n".toList, ⟨2006, 1, 2, 3, 4, 5⟩⟩

/-- Two entries sharing a timestamp but not an extension. -/
def mixedEntries : List Entry := [mixedExtA, mixedExtB]

/-- Manager built over mixedEntries. -/
def mixedManager : FileManager := ⟨"d", FileManager.list_files (-180) "d" mixedEntries⟩

/-- Entry whose exif create date (2008) is newer than its filesystem
status-change time (2005). -/
def cexEntry2 : Entry :=
  ⟨"a.jpg".toList, true, [1], "2008:05:30 15:56:01\n".toList, ⟨2005, 1, 1, 0, 0, 0⟩⟩

/-- Entry with a create date shared by no other entry of group5Entries. -/
def group5EntryA : Entry :=
  ⟨"s.jpg".toList, true, [8], "2004:08:27 13:52:55\n".toList, ⟨2006, 1, 2, 3, 4, 5⟩⟩

/-- First of two entries sharing a create date and extension. -/
def group5EntryB : Entry :=
  ⟨"t.jpg".toList, true, [9], "2008:05:30 15:56:01\n".toList, ⟨2006, 1, 2, 3, 4, 5⟩⟩

/-- Second of two entries sharing a create date and extension. -/
def group5EntryC : Entry :=
  ⟨"u.jpg".toList, true, [10], "2008:05:30 15:56:01\n".toList, ⟨2006, 1, 2, 3, 4, 5⟩⟩

/-- Three-entry directory with a singleton date and a two-element group. -/
def group5Entries : List Entry := [group5EntryA, group5EntryB, group5EntryC]

/-- Manager built over group5Entries. -/
def group5Manager : FileManager := ⟨"d", FileManager.list_files (-180) "d" group5Entries⟩

/-- Manager over records with pairwise-distinct fingerprints. -/
def distinctHashManager : FileManager := ⟨"d", [fileA, fileB]⟩

/-- Manager over three records with identical fingerprints. -/
def sameHashManager : FileManager := ⟨"d", [fileD1, fileD2, fileD3]⟩

/-- Manager holding a resolved record followed by an unresolved one. -/
def mixedResolveManager : FileManager := ⟨"d", [fileA, fileB]⟩

/-- Manager holding two resolved records. -/
def resolvedManager : FileManager := ⟨"d", [fileA, fileC]⟩

/-! ### Lemmas about decimal digit strings -/

lemma natDigitsAux_irrel (n : Nat) :
    ∀ f1 f2, n ≤ f1 → n ≤ f2 → natDigitsAux f1 n = natDigitsAux f2 n := by
  induction n using Nat.strong_induction_on with
  | _ n ih =>
    intro f1 f2 h1 h2
    by_cases hn : n < 10
    · cases f1 <;> cases f2 <;> simp [natDigitsAux, hn]
    · obtain ⟨a, rfl⟩ : ∃ a, f1 = a + 1 := ⟨f1 - 1, by omega⟩
      obtain ⟨b, rfl⟩ : ∃ b, f2 = b + 1 := ⟨f2 - 1, by omega⟩
      simp only [natDigitsAux, if_neg hn]
      rw [ih (n / 10) (by omega) a b (by omega) (by omega)]

lemma natDigits_eq (n : Nat) :
    natDigits n =
      if n < 10 then [digitChar n] else natDigits (n / 10) ++ [digitChar (n % 10)] := by
  unfold natDigits
  by_cases hn : n < 10
  · cases n <;> simp [natDigitsAux, hn]
  · obtain ⟨a, rfl⟩ : ∃ a, n = a + 1 := ⟨n - 1, by omega⟩
    simp only [natDigitsAux, if_neg hn]
    rw [natDigitsAux_irrel ((a + 1) / 10) a ((a + 1) / 10) (by omega) (by omega)]

lemma digitChar_toNat {d : Nat} (h : d < 10) : (digitChar d).toNat = 48 + d := by
  interval_cases d <;> decide

lemma natDigits_ne_nil (n : Nat) : natDigits n ≠ [] := by
  rw [natDigits_eq]; split <;> simp

lemma natDigits_all_digit (n : Nat) : ∀ c ∈ natDigits n, isDigitCh c := by
  induction n using Nat.strong_induction_on with
  | _ n ih =>
    intro c hc
    rw [natDigits_eq] at hc
    by_cases hn : n < 10
    · rw [if_pos hn] at hc
      simp only [List.mem_singleton] at hc
      subst hc
      constructor <;> rw [digitChar_toNat hn] <;> omega
    · rw [if_neg hn] at hc
      rcases List.mem_append.mp hc with h' | h'
      · exact ih (n / 10) (by omega) c h'
      · simp only [List.mem_singleton] at h'
        subst h'
        have hlt : n % 10 < 10 := by omega
        constructor <;> rw [digitChar_toNat hlt] <;> omega

lemma valFrom_nil (a : Nat) : valFrom a [] = a := rfl

lemma valFrom_cons (a : Nat) (c : Char) (cs : List Char) :
    valFrom a (c :: cs) = valFrom (a * 10 + (c.toNat - 48)) cs := rfl

lemma valFrom_append (a : Nat) (xs ys : List Char) :
    valFrom a (xs ++ ys) = valFrom (valFrom a xs) ys := by
  induction xs generalizing a with
  | nil => rfl
  | cons c cs ih =>
    simp only [List.cons_append, valFrom_cons]
    exact ih _

lemma valFrom_natDigits (n : Nat) :
    ∀ a, valFrom a (natDigits n) = a * 10 ^ (natDigits n).length + n := by
  induction n using Nat.strong_induction_on with
  | _ n ih =>
    intro a
    rw [natDigits_eq]
    by_cases hn : n < 10
    · rw [if_pos hn]
      simp only [valFrom_cons, valFrom_nil, List.length_singleton, pow_one]
      rw [digitChar_toNat hn]
      omega
    · rw [if_neg hn]
      rw [valFrom_append, ih (n / 10) (by omega)]
      have h10 : (digitChar (n % 10)).toNat - 48 = n % 10 := by
        rw [digitChar_toNat (by omega : n % 10 < 10)]; omega
      simp only [valFrom_cons, valFrom_nil, h10, List.length_append, List.length_singleton]
      rw [pow_succ]
      have : 10 * (n / 10) + n % 10 = n := Nat.div_add_mod n 10
      ring_nf
      omega

lemma natDigits_val (n : Nat) : valFrom 0 (natDigits n) = n := by
  rw [valFrom_natDigits]; simp

lemma natDigits_inj {m n : Nat} (h : natDigits m = natDigits n) : m = n := by
  have hm := natDigits_val m
  rw [h, natDigits_val] at hm
  exact hm.symm

lemma natDigits_length_le {n : Nat} :
    ∀ k, 1 ≤ k → n < 10 ^ k → (natDigits n).length ≤ k := by
  induction n using Nat.strong_induction_on with
  | _ n ih =>
    intro k hk hlt
    rw [natDigits_eq]
    by_cases hn : n < 10
    · rw [if_pos hn]; simpa using hk
    · rw [if_neg hn]
      rcases k with _ | k
      · omega
      rcases k with _ | k
      · simp at hlt; omega
      have hdiv : n / 10 < 10 ^ (k + 1) := by
        have : (10 : Nat) ^ (k + 2) = 10 ^ (k + 1) * 10 := by ring
        rw [this] at hlt
        exact Nat.div_lt_of_lt_mul (by omega)
      have := ih (n / 10) (by omega) (k + 1) (by omega) hdiv
      simp only [List.length_append, List.length_singleton]
      omega

lemma padZ_length {w n : Nat} (h : (natDigits n).length ≤ w) : (padZ w n).length = w := by
  simp only [padZ, List.length_append, List.length_replicate]
  omega

lemma valFrom_replicate_zero (z : Nat) : ∀ a, valFrom a (List.replicate z '0') = a * 10 ^ z := by
  induction z with
  | zero =>
    intro a
    rw [List.replicate_zero, valFrom_nil, pow_zero, Nat.mul_one]
  | succ z ih =>
    intro a
    rw [List.replicate_succ]
    have h0 : ('0' : Char).toNat - 48 = 0 := by decide
    simp only [valFrom_cons, h0, Nat.add_zero]
    rw [ih, pow_succ]
    ring

lemma padZ_val (w n : Nat) : valFrom 0 (padZ w n) = n := by
  rw [padZ, valFrom_append, valFrom_replicate_zero, Nat.zero_mul, natDigits_val]

lemma padZ_inj {w m n : Nat} (h : padZ w m = padZ w n) : m = n := by
  have hm := padZ_val w m
  rw [h, padZ_val] at hm
  exact hm.symm

lemma padZ_all_digit (w n : Nat) : ∀ c ∈ padZ w n, isDigitCh c := by
  intro c hc
  rcases List.mem_append.mp hc with h' | h'
  · have := List.eq_of_mem_replicate h'
    subst this
    decide
  · exact natDigits_all_digit n c h'

lemma digit_ne_dot {c : Char} (h : isDigitCh c) : c ≠ '.' := by
  intro h'
  subst h'
  revert h
  decide

lemma digit_ne_space {c : Char} (h : isDigitCh c) : c ≠ ' ' := by
  intro h'
  subst h'
  revert h
  decide

lemma natDigits_two_le_length {n : Nat} (h : n < 100) : (natDigits n).length ≤ 2 :=
  natDigits_length_le 2 (by omega) (by norm_num; omega)

lemma natDigits_four_le_length {n : Nat} (h : n < 10000) : (natDigits n).length ≤ 4 :=
  natDigits_length_le 4 (by omega) (by norm_num; omega)

/-! ### Lemmas about the formatted date -/

lemma not_dot_padZ (w n : Nat) : ('.' : Char) ∉ padZ w n := by
  intro h
  exact absurd (padZ_all_digit w n '.' h) (by decide)

lemma fmtOffset_length {off : Int} (h : off.natAbs ≤ 1439) : (fmtOffset off).length = 5 := by
  have h1 : (padZ 2 (off.natAbs / 60)).length = 2 :=
    padZ_length (natDigits_two_le_length (by omega))
  have h2 : (padZ 2 (off.natAbs % 60)).length = 2 :=
    padZ_length (natDigits_two_le_length (by omega))
  simp [fmtOffset, h1, h2]

lemma fmtDate_length {d : Datetime} (h : d.valid) : (fmtDate d).length = 21 := by
  obtain ⟨h1, h2, h3, h4, h5, h6, h7, h8, h9, h10⟩ := h
  have hy : (padZ 4 d.year).length = 4 :=
    padZ_length (natDigits_four_le_length (by omega))
  have hmo : (padZ 2 d.month).length = 2 :=
    padZ_length (natDigits_two_le_length (by omega))
  have hd : (padZ 2 d.day).length = 2 :=
    padZ_length (natDigits_two_le_length (by omega))
  have hh : (padZ 2 d.hour).length = 2 :=
    padZ_length (natDigits_two_le_length (by omega))
  have hmi : (padZ 2 d.minute).length = 2 :=
    padZ_length (natDigits_two_le_length (by omega))
  have hs : (padZ 2 d.second).length = 2 :=
    padZ_length (natDigits_two_le_length (by omega))
  have ho := fmtOffset_length h10
  simp [fmtDate, hy, hmo, hd, hh, hmi, hs, ho]

lemma not_dot_fmtOffset (off : Int) : ('.' : Char) ∉ fmtOffset off := by
  intro hmem
  simp only [fmtOffset, List.mem_cons, List.mem_append] at hmem
  rcases hmem with h | h | h
  · revert h; split <;> decide
  · exact not_dot_padZ _ _ h
  · exact not_dot_padZ _ _ h

lemma not_dot_fmtDate (d : Datetime) : ('.' : Char) ∉ fmtDate d := by
  intro hmem
  simp only [fmtDate, List.mem_append, List.mem_cons] at hmem
  rcases hmem with h | h | h | h | h | h | h | h | h
  · exact not_dot_padZ _ _ h
  · exact not_dot_padZ _ _ h
  · exact not_dot_padZ _ _ h
  · exact absurd h (by decide)
  · exact not_dot_padZ _ _ h
  · exact not_dot_padZ _ _ h
  · exact not_dot_padZ _ _ h
  · exact absurd h (by decide)
  · exact not_dot_fmtOffset _ h

lemma fmtOffset_inj {o1 o2 : Int} (h1 : o1.natAbs ≤ 1439) (h2 : o2.natAbs ≤ 1439)
    (h : fmtOffset o1 = fmtOffset o2) : o1 = o2 := by
  unfold fmtOffset at h
  rw [List.cons_eq_cons] at h
  obtain ⟨hsgn, hrest⟩ := h
  have hlen : (padZ 2 (o1.natAbs / 60)).length = (padZ 2 (o2.natAbs / 60)).length := by
    rw [padZ_length (natDigits_two_le_length (by omega)),
      padZ_length (natDigits_two_le_length (by omega))]
  obtain ⟨hdiv, hmod⟩ := List.append_inj hrest hlen
  have hdiv' := padZ_inj hdiv
  have hmod' := padZ_inj hmod
  have habs : o1.natAbs = o2.natAbs := by omega
  split_ifs at hsgn with hs1 hs2 hs2
  · omega
  · exact absurd hsgn (by decide)
  · exact absurd hsgn (by decide)
  · omega

lemma fmtDate_inj {a b : Datetime} (ha : a.valid) (hb : b.valid)
    (h : fmtDate a = fmtDate b) : a = b := by
  obtain ⟨a1, a2, a3, a4, a5, a6, a7, a8, a9, a10⟩ := ha
  obtain ⟨b1, b2, b3, b4, b5, b6, b7, b8, b9, b10⟩ := hb
  unfold fmtDate at h
  obtain ⟨hy, h⟩ := List.append_inj h (by
    rw [padZ_length (natDigits_four_le_length (by omega)),
      padZ_length (natDigits_four_le_length (by omega))])
  obtain ⟨hmo, h⟩ := List.append_inj h (by
    rw [padZ_length (natDigits_two_le_length (by omega)),
      padZ_length (natDigits_two_le_length (by omega))])
  obtain ⟨hd, h⟩ := List.append_inj h (by
    rw [padZ_length (natDigits_two_le_length (by omega)),
      padZ_length (natDigits_two_le_length (by omega))])
  rw [List.cons_eq_cons] at h
  obtain ⟨-, h⟩ := h
  obtain ⟨hh, h⟩ := List.append_inj h (by
    rw [padZ_length (natDigits_two_le_length (by omega)),
      padZ_length (natDigits_two_le_length (by omega))])
  obtain ⟨hmi, h⟩ := List.append_inj h (by
    rw [padZ_length (natDigits_two_le_length (by omega)),
      padZ_length (natDigits_two_le_length (by omega))])
  obtain ⟨hs, h⟩ := List.append_inj h (by
    rw [padZ_length (natDigits_two_le_length (by omega)),
      padZ_length (natDigits_two_le_length (by omega))])
  rw [List.cons_eq_cons] at h
  obtain ⟨-, hoff⟩ := h
  cases a
  cases b
  simp only [Datetime.mk.injEq]
  exact ⟨padZ_inj hy, padZ_inj hmo, padZ_inj hd, padZ_inj hh, padZ_inj hmi,
    padZ_inj hs, fmtOffset_inj a10 b10 hoff⟩

/-! ### Lemmas about pathlib stems and suffixes -/

lemma lastDot_nil : lastDot [] = none := rfl

lemma lastDot_cons_some {c : Char} {cs : List Char} {i : Nat} (h : lastDot cs = some i) :
    lastDot (c :: cs) = some (i + 1) := by
  unfold lastDot
  rw [h]

lemma lastDot_cons_none {c : Char} {cs : List Char} (h : lastDot cs = none) :
    lastDot (c :: cs) = if c = '.' then some 0 else none := by
  unfold lastDot
  rw [h]

lemma suffix_of_lastDot_some {p : FsPath} {i : Nat} (h : lastDot p.name = some i) :
    p.suffix = if 0 < i ∧ i + 1 < p.name.length then p.name.drop i else [] := by
  unfold FsPath.suffix
  rw [h]

lemma suffix_of_lastDot_none {p : FsPath} (h : lastDot p.name = none) : p.suffix = [] := by
  unfold FsPath.suffix
  rw [h]

lemma stem_of_lastDot_some {p : FsPath} {i : Nat} (h : lastDot p.name = some i) :
    p.stem = if 0 < i ∧ i + 1 < p.name.length then p.name.take i else p.name := by
  unfold FsPath.stem
  rw [h]

lemma stem_of_lastDot_none {p : FsPath} (h : lastDot p.name = none) : p.stem = p.name := by
  unfold FsPath.stem
  rw [h]

lemma lastDot_eq_none {cs : List Char} (h : ('.' : Char) ∉ cs) : lastDot cs = none := by
  induction cs with
  | nil => rfl
  | cons c cs ih =>
    rw [lastDot_cons_none (ih (fun hc => h (List.mem_cons_of_mem _ hc)))]
    rw [if_neg (fun hc => h (by rw [hc]; exact List.mem_cons_self _ _))]

lemma lastDot_none_not_mem {cs : List Char} (h : lastDot cs = none) : ('.' : Char) ∉ cs := by
  induction cs with
  | nil => simp
  | cons c cs ih =>
    intro hmem
    rcases hm : lastDot cs with - | i
    · rw [lastDot_cons_none hm] at h
      rcases List.mem_cons.mp hmem with hc | hc
      · rw [if_pos hc.symm] at h
        exact Option.some_ne_none _ h
      · exact ih hm hc
    · rw [lastDot_cons_some hm] at h
      exact Option.some_ne_none _ h

lemma lastDot_append_none {xs ys : List Char} (h : lastDot ys = none) :
    lastDot (xs ++ ys) = lastDot xs := by
  induction xs with
  | nil => simpa using h
  | cons c cs ih =>
    rw [List.cons_append]
    rcases hm : lastDot cs with - | i
    · rw [lastDot_cons_none (ih.trans hm), lastDot_cons_none hm]
    · rw [lastDot_cons_some (ih.trans hm), lastDot_cons_some hm]

lemma lastDot_append_some {xs ys : List Char} {j : Nat} (h : lastDot ys = some j) :
    lastDot (xs ++ ys) = some (xs.length + j) := by
  induction xs with
  | nil => simpa using h
  | cons c cs ih =>
    rw [List.cons_append, lastDot_cons_some ih]
    simp only [List.length_cons]
    congr 1
    omega

lemma lastDot_cons_dot {t : List Char} (h : lastDot t = none) :
    lastDot ('.' :: t) = some 0 := by
  rw [lastDot_cons_none h]
  simp

lemma lastDot_spec {cs : List Char} :
    ∀ {i : Nat}, lastDot cs = some i →
      i < cs.length ∧ cs.drop i = '.' :: cs.drop (i + 1) ∧ ('.' : Char) ∉ cs.drop (i + 1) := by
  induction cs with
  | nil => intro i h; exact absurd h (by simp [lastDot_nil])
  | cons c cs ih =>
    intro i h
    rcases hm : lastDot cs with - | m
    · rw [lastDot_cons_none hm] at h
      by_cases hc : c = '.'
      · rw [if_pos hc] at h
        obtain rfl : (0 : Nat) = i := Option.some.inj h
        subst hc
        refine ⟨by simp, by simp, ?_⟩
        simpa using lastDot_none_not_mem hm
      · rw [if_neg hc] at h
        exact absurd h.symm (Option.some_ne_none _)
    · rw [lastDot_cons_some hm] at h
      obtain rfl : m + 1 = i := Option.some.inj h
      obtain ⟨hlt, hdrop, hnd⟩ := ih hm
      exact ⟨by simp; omega, by simpa using hdrop, by simpa using hnd⟩

lemma suffix_shaped (p : FsPath) : SuffixShaped p.suffix := by
  rcases hl : lastDot p.name with - | i
  · rw [suffix_of_lastDot_none hl]
    exact Or.inl rfl
  · obtain ⟨hlt, hdrop, hnd⟩ := lastDot_spec hl
    rw [suffix_of_lastDot_some hl]
    split_ifs with hc
    · refine Or.inr ⟨p.name.drop (i + 1), hdrop, ?_, hnd⟩
      have : 0 < (p.name.drop (i + 1)).length := by
        rw [List.length_drop]
        omega
      exact List.ne_nil_of_length_pos this
    · exact Or.inl rfl

lemma stem_suffix_comp (par : String) (D mid s : List Char) (hD : ('.' : Char) ∉ D)
    (hDne : D ≠ []) (hmid : ('.' : Char) ∉ mid) (hs : SuffixShaped s) :
    (FsPath.mk par (D ++ (mid ++ s))).stem = D ++ mid ∧
      (FsPath.mk par (D ++ (mid ++ s))).suffix = s := by
  have hDm : ('.' : Char) ∉ D ++ mid := by
    rw [List.mem_append]
    rintro (h | h)
    · exact hD h
    · exact hmid h
  rcases hs with rfl | ⟨t, rfl, htne, htd⟩
  · have hnone : lastDot (FsPath.mk par (D ++ (mid ++ []))).name = none := by
      show lastDot (D ++ (mid ++ [])) = none
      rw [List.append_nil]
      exact lastDot_eq_none hDm
    rw [stem_of_lastDot_none hnone, suffix_of_lastDot_none hnone]
    simp
  · have h0 : lastDot ('.' :: t) = some 0 := lastDot_cons_dot (lastDot_eq_none htd)
    have hms : lastDot (mid ++ '.' :: t) = some mid.length := by
      simpa using lastDot_append_some h0
    have hname : lastDot (FsPath.mk par (D ++ (mid ++ '.' :: t))).name
        = some (D.length + mid.length) := lastDot_append_some hms
    have hcond : 0 < D.length + mid.length ∧
        D.length + mid.length + 1 < (FsPath.mk par (D ++ (mid ++ '.' :: t))).name.length := by
      have hDpos : 0 < D.length := List.length_pos.mpr hDne
      have htpos : 0 < t.length := List.length_pos.mpr htne
      show 0 < D.length + mid.length ∧
        D.length + mid.length + 1 < (D ++ (mid ++ '.' :: t)).length
      simp only [List.length_append, List.length_cons]
      omega
    have hassoc : D ++ (mid ++ '.' :: t) = (D ++ mid) ++ '.' :: t := by
      rw [List.append_assoc]
    have hlen : (D ++ mid).length = D.length + mid.length := by simp
    rw [stem_of_lastDot_some hname, suffix_of_lastDot_some hname, if_pos hcond, if_pos hcond]
    constructor
    · show (D ++ (mid ++ '.' :: t)).take (D.length + mid.length) = D ++ mid
      rw [hassoc, ← hlen, List.take_left]
    · show (D ++ (mid ++ '.' :: t)).drop (D.length + mid.length) = '.' :: t
      rw [hassoc, ← hlen, List.drop_left]

/-! ### Candidate-name disjointness -/

lemma digitRun_append_inj :
    ∀ (a1 s1 a2 s2 : List Char), (∀ c ∈ a1, isDigitCh c) → (∀ c ∈ a2, isDigitCh c) →
      SuffixShaped s1 → SuffixShaped s2 → a1 ≠ [] → a2 ≠ [] →
      a1 ++ s1 = a2 ++ s2 → a1 = a2 ∧ s1 = s2 := by
  intro a1
  induction a1 with
  | nil => intro s1 a2 s2 _ _ _ _ hne _ _; exact absurd rfl hne
  | cons x t1 ih =>
    intro s1 a2 s2 hd1 hd2 hs1 hs2 _ hne2 heq
    cases a2 with
    | nil => exact absurd rfl hne2
    | cons y t2 =>
      rw [List.cons_append, List.cons_append, List.cons_eq_cons] at heq
      obtain ⟨rfl, heq⟩ := heq
      by_cases h1 : t1 = []
      · subst h1
        by_cases h2 : t2 = []
        · subst h2
          rw [List.nil_append, List.nil_append] at heq
          exact ⟨rfl, heq⟩
        · exfalso
          obtain ⟨z, t2', rfl⟩ := List.exists_cons_of_ne_nil h2
          rw [List.nil_append, List.cons_append] at heq
          have hz : isDigitCh z := hd2 z (by simp)
          rcases hs1 with rfl | ⟨u, rfl, -, -⟩
          · exact List.cons_ne_nil _ _ heq.symm
          · rw [List.cons_eq_cons] at heq
            exact digit_ne_dot hz heq.1.symm
      · by_cases h2 : t2 = []
        · exfalso
          subst h2
          obtain ⟨z, t1', rfl⟩ := List.exists_cons_of_ne_nil h1
          rw [List.nil_append, List.cons_append] at heq
          have hz : isDigitCh z := hd1 z (by simp)
          rcases hs2 with rfl | ⟨u, hu, -, -⟩
          · exact List.cons_ne_nil _ _ heq
          · rw [hu, List.cons_eq_cons] at heq
            exact digit_ne_dot hz heq.1
        · have hsub := ih s1 t2 s2 (fun c hc => hd1 c (List.mem_cons_of_mem _ hc))
            (fun c hc => hd2 c (List.mem_cons_of_mem _ hc)) hs1 hs2 h1 h2 heq
          exact ⟨by rw [hsub.1], hsub.2⟩

lemma keyGood_of_valid {f : File} (h : f.date.valid) : KeyGood (keyOf f) :=
  ⟨fmtDate_length h, not_dot_fmtDate _, suffix_shaped _⟩

lemma get_target_false (f : File) : f.get_target false = nameAt (keyOf f) f.index := rfl

lemma get_target_true (f : File) : f.get_target true = nameUniq (keyOf f) := rfl

lemma nameAt_inj {k1 k2 : Key} {i1 i2 : Nat} (h1 : KeyGood k1) (h2 : KeyGood k2) :
    nameAt k1 i1 = nameAt k2 i2 ↔ (k1 = k2 ∧ i1 = i2) := by
  constructor
  · intro h
    obtain ⟨p1, f1, s1⟩ := k1
    obtain ⟨p2, f2, s2⟩ := k2
    obtain ⟨hl1, hd1, hs1⟩ := h1
    obtain ⟨hl2, hd2, hs2⟩ := h2
    unfold nameAt at h
    rw [FsPath.mk.injEq] at h
    obtain ⟨hp, hn⟩ := h
    obtain ⟨hf, hrest⟩ := List.append_inj hn (by rw [hl1, hl2])
    rw [List.cons_eq_cons] at hrest
    obtain ⟨-, hrest⟩ := hrest
    obtain ⟨hdig, hsuf⟩ := digitRun_append_inj _ _ _ _ (natDigits_all_digit i1)
      (natDigits_all_digit i2) hs1 hs2 (natDigits_ne_nil i1) (natDigits_ne_nil i2) hrest
    refine ⟨?_, natDigits_inj hdig⟩
    rw [Prod.mk.injEq, Prod.mk.injEq]
    exact ⟨hp, hf, hsuf⟩
  · rintro ⟨rfl, rfl⟩
    rfl

lemma nameUniq_ne_nameAt {k1 k2 : Key} {i2 : Nat} (h1 : KeyGood k1) (h2 : KeyGood k2) :
    nameUniq k1 ≠ nameAt k2 i2 := by
  intro h
  obtain ⟨p1, f1, s1⟩ := k1
  obtain ⟨p2, f2, s2⟩ := k2
  obtain ⟨hl1, hd1, hs1⟩ := h1
  obtain ⟨hl2, hd2, hs2⟩ := h2
  unfold nameUniq nameAt at h
  rw [FsPath.mk.injEq] at h
  obtain ⟨-, hn⟩ := h
  obtain ⟨-, hrest⟩ := List.append_inj hn (by rw [hl1, hl2])
  rcases hs1 with rfl | ⟨u, rfl, -, -⟩
  · exact List.cons_ne_nil _ _ hrest.symm
  · rw [List.cons_eq_cons] at hrest
    exact absurd hrest.1 (by decide)

lemma nameUniq_inj {k1 k2 : Key} (h1 : KeyGood k1) (h2 : KeyGood k2) :
    nameUniq k1 = nameUniq k2 ↔ k1 = k2 := by
  constructor
  · intro h
    obtain ⟨p1, f1, s1⟩ := k1
    obtain ⟨p2, f2, s2⟩ := k2
    obtain ⟨hl1, -, -⟩ := h1
    obtain ⟨hl2, -, -⟩ := h2
    unfold nameUniq at h
    rw [FsPath.mk.injEq] at h
    obtain ⟨hp, hn⟩ := h
    obtain ⟨hf, hs⟩ := List.append_inj hn (by rw [hl1, hl2])
    rw [Prod.mk.injEq, Prod.mk.injEq]
    exact ⟨hp, hf, hs⟩
  · rintro rfl
    rfl

lemma natDigits_one : natDigits 1 = ['1'] := by decide

lemma natDigits_two : natDigits 2 = ['2'] := by decide

lemma nameAt_parent (k : Key) (ix : Nat) : (nameAt k ix).parent = k.1 := rfl

lemma nameAt_one_stem_suffix {k : Key} (hk : KeyGood k) :
    (nameAt k 1).stem = k.2.1 ++ [' ', '1'] ∧ (nameAt k 1).suffix = k.2.2 := by
  obtain ⟨hl, hd, hs⟩ := hk
  have hmid : ('.' : Char) ∉ [' ', '1'] := by decide
  have hne : k.2.1 ≠ [] := by
    intro h
    rw [h] at hl
    simp at hl
  have := stem_suffix_comp k.1 k.2.1 [' ', '1'] k.2.2 hd hne hmid hs
  have harr : nameAt k 1 = FsPath.mk k.1 (k.2.1 ++ ([' ', '1'] ++ k.2.2)) := by
    unfold nameAt
    rw [natDigits_one]
    rfl
  rw [harr]
  exact this

lemma sibling_of_nameAt_one {k : Key} (hk : KeyGood k) :
    FsPath.mk (nameAt k 1).parent
        (((nameAt k 1).stem.dropLast ++ ['2']) ++ (nameAt k 1).suffix) = nameAt k 2 := by
  obtain ⟨hstem, hsuf⟩ := nameAt_one_stem_suffix hk
  rw [hstem, hsuf, nameAt_parent]
  have hdrop : (k.2.1 ++ [' ', '1']).dropLast = k.2.1 ++ [' '] := by
    have : k.2.1 ++ [' ', '1'] = (k.2.1 ++ [' ']) ++ ['1'] := by
      rw [List.append_assoc]
      rfl
    rw [this, List.dropLast_concat]
  rw [hdrop]
  unfold nameAt
  rw [natDigits_two, FsPath.mk.injEq]
  constructor
  · rfl
  · rw [List.append_assoc, List.append_assoc]
    rfl

/-! ### Positional list helpers -/

lemma take_succ_getD :
    ∀ (l : List File) (n : Nat), n < l.length → l.take (n + 1) = l.take n ++ [l.getD n dfl] := by
  intro l
  induction l with
  | nil => intro n h; simp at h
  | cons a l ih =>
    intro n h
    cases n with
    | zero => rfl
    | succ n =>
      have h' : n < l.length := by simpa using h
      show a :: l.take (n + 1) = a :: (l.take n ++ [l.getD n dfl])
      rw [ih n h']

lemma getD_mem : ∀ (l : List File) (n : Nat), n < l.length → l.getD n dfl ∈ l := by
  intro l
  induction l with
  | nil => intro n h; simp at h
  | cons a l ih =>
    intro n h
    cases n with
    | zero => exact List.mem_cons_self _ _
    | succ n =>
      have h' : n < l.length := by simpa using h
      exact List.mem_cons_of_mem _ (ih n h')

lemma drop_eq_getD_cons :
    ∀ (l : List File) (n : Nat), n < l.length → l.drop n = l.getD n dfl :: l.drop (n + 1) := by
  intro l
  induction l with
  | nil => intro n h; simp at h
  | cons a l ih =>
    intro n h
    cases n with
    | zero => rfl
    | succ n =>
      have h' : n < l.length := by simpa using h
      show l.drop n = l.getD n dfl :: l.drop (n + 1)
      exact ih n h'

/-! ### Lemmas about the collision key counts -/

lemma cntKey_nil (k : Key) : cntKey [] k = 0 := rfl

lemma cntKey_append (l1 l2 : List File) (k : Key) :
    cntKey (l1 ++ l2) k = cntKey l1 k + cntKey l2 k := by
  unfold cntKey
  rw [List.countP_append]

lemma cntKey_singleton (f : File) (k : Key) :
    cntKey [f] k = if keyOf f = k then 1 else 0 := by
  unfold cntKey
  simp [List.countP_cons]

lemma cntKey_le_length (l : List File) (k : Key) : cntKey l k ≤ l.length :=
  List.countP_le_length _

lemma cntKey_take_mono (l : List File) (k : Key) {a b : Nat} (h : a ≤ b) :
    cntKey (l.take a) k ≤ cntKey (l.take b) k := by
  have hsub : (l.take a).Sublist (l.take b) := by
    have : l.take a = (l.take b).take a := by
      rw [List.take_take, Nat.min_eq_left h]
    rw [this]
    exact List.take_sublist _ _
  exact List.Sublist.countP_le _ hsub

lemma cntKey_take_succ (l : List File) (k : Key) {n : Nat} (h : n < l.length) :
    cntKey (l.take (n + 1)) k
      = cntKey (l.take n) k + if keyOf (l.getD n dfl) = k then 1 else 0 := by
  rw [take_succ_getD l n h, cntKey_append, cntKey_singleton]

lemma cntKey_take_lt {l : List File} {k : Key} {n : Nat} (h : n < l.length)
    (hk : keyOf (l.getD n dfl) = k) : cntKey (l.take n) k + 1 ≤ cntKey l k := by
  have h1 := cntKey_take_succ l k h
  rw [if_pos hk] at h1
  have h2 : cntKey (l.take (n + 1)) k ≤ cntKey l k := by
    calc cntKey (l.take (n + 1)) k
        ≤ cntKey (l.take l.length) k := cntKey_take_mono l k (by omega)
      _ = cntKey l k := by rw [List.take_length]
  omega

/-! ### Lemmas about the collision loop -/

lemma setIdx_index (f : File) (r : Nat) : (setIdx f r).index = r := rfl

lemma setIdx_target (f : File) (r : Nat) : (setIdx f r).target = nameAt (keyOf f) r := rfl

lemma keyOf_setIdx (f : File) (r : Nat) : keyOf (setIdx f r) = keyOf f := rfl

lemma setIdx_setIdx (f : File) (r r' : Nat) : setIdx (setIdx f r) r' = setIdx f r' := rfl

lemma increment_target_eq (f : File) : f.increment_target = setIdx f (f.index + 1) := rfl

lemma setIdx_self {f : File} (h : f.target = nameAt (keyOf f) f.index) :
    setIdx f f.index = f := by
  unfold setIdx
  cases f
  simp only [File.mk.injEq, and_true, true_and]
  exact h.symm

lemma bumpFree_spec :
    ∀ (m : Nat) (fuel : Nat) (ts : List FsPath) (f : File),
      f.target = nameAt (keyOf f) f.index →
      (∀ d, d < m → nameAt (keyOf f) (f.index + d) ∈ ts) →
      nameAt (keyOf f) (f.index + m) ∉ ts →
      m ≤ fuel →
      bumpFree ts fuel f = setIdx f (f.index + m) := by
  intro m
  induction m with
  | zero =>
    intro fuel ts f htgt _ hnot _
    rw [Nat.add_zero] at hnot
    rw [← htgt] at hnot
    cases fuel with
    | zero =>
      show f = setIdx f (f.index + 0)
      rw [Nat.add_zero, setIdx_self htgt]
    | succ fl =>
      show (if f.target ∈ ts then bumpFree ts fl f.increment_target else f) = _
      rw [if_neg hnot, Nat.add_zero, setIdx_self htgt]
  | succ m ih =>
    intro fuel ts f htgt hmem hnot hfuel
    obtain ⟨fl, rfl⟩ : ∃ fl, fuel = fl + 1 := ⟨fuel - 1, by omega⟩
    show (if f.target ∈ ts then bumpFree ts fl f.increment_target else f) = _
    have h0 : f.target ∈ ts := by
      rw [htgt]
      have := hmem 0 (by omega)
      simpa using this
    rw [if_pos h0, increment_target_eq]
    have hstep := ih fl ts (setIdx f (f.index + 1)) (by rw [setIdx_target, setIdx_index, keyOf_setIdx])
      (fun d hd => by
        rw [keyOf_setIdx, setIdx_index]
        have := hmem (d + 1) (by omega)
        have harith : f.index + (d + 1) = f.index + 1 + d := by omega
        rwa [harith] at this)
      (by
        rw [keyOf_setIdx, setIdx_index]
        have harith : f.index + (m + 1) = f.index + 1 + m := by omega
        rwa [harith] at hnot)
      (by omega)
    rw [hstep, setIdx_setIdx, setIdx_index]
    congr 1
    omega

lemma bumpFree_of_not_mem {ts : List FsPath} {f : File} (h : f.target ∉ ts) :
    ∀ fuel, bumpFree ts fuel f = f := by
  intro fuel
  cases fuel with
  | zero => rfl
  | succ fl =>
    show (if f.target ∈ ts then bumpFree ts fl f.increment_target else f) = f
    rw [if_neg h]

/-! ### The rank characterization of phase one -/

lemma rank_mem_iff (files : List File) :
    ∀ n : Nat, n ≤ files.length → ∀ (k : Key) (ix : Nat),
      ((∃ j, j < n ∧ keyOf (files.getD j dfl) = k ∧ rnk files j = ix) ↔
        (1 ≤ ix ∧ ix ≤ cntKey (files.take n) k)) := by
  intro n
  induction n with
  | zero =>
    intro _ k ix
    constructor
    · rintro ⟨j, hj, -, -⟩
      omega
    · rintro ⟨h1, h2⟩
      rw [List.take_zero, cntKey_nil] at h2
      omega
  | succ n ih =>
    intro hn k ix
    have hnlt : n < files.length := by omega
    have hsucc := cntKey_take_succ files k hnlt
    have ihn := ih (by omega) k ix
    by_cases hg : keyOf (files.getD n dfl) = k
    · rw [if_pos hg] at hsucc
      have hrnkn : rnk files n = cntKey (files.take n) k + 1 := by
        unfold rnk
        rw [hg]
        omega
      constructor
      · rintro ⟨j, hj, hkj, hrj⟩
        by_cases hjn : j < n
        · have := ihn.mp ⟨j, hjn, hkj, hrj⟩
          omega
        · have hj' : j = n := by omega
          subst hj'
          rw [hrnkn] at hrj
          omega
      · rintro ⟨h1, h2⟩
        by_cases hle : ix ≤ cntKey (files.take n) k
        · obtain ⟨j, hj, hkj, hrj⟩ := ihn.mpr ⟨h1, hle⟩
          exact ⟨j, by omega, hkj, hrj⟩
        · refine ⟨n, by omega, hg, ?_⟩
          rw [hrnkn]
          omega
    · rw [if_neg hg] at hsucc
      constructor
      · rintro ⟨j, hj, hkj, hrj⟩
        by_cases hjn : j < n
        · have := ihn.mp ⟨j, hjn, hkj, hrj⟩
          omega
        · have hj' : j = n := by omega
          subst hj'
          exact absurd hkj hg
      · rintro ⟨h1, h2⟩
        obtain ⟨j, hj, hkj, hrj⟩ := ihn.mpr ⟨h1, by omega⟩
        exact ⟨j, by omega, hkj, hrj⟩

lemma tsRange_length (files : List File) (n : Nat) : (tsRange files n).length = n := by
  simp [tsRange]

lemma tsRange_succ (files : List File) (n : Nat) :
    tsRange files (n + 1)
      = tsRange files n ++ [nameAt (keyOf (files.getD n dfl)) (rnk files n)] := by
  unfold tsRange
  rw [List.range_succ, List.map_append]
  rfl

lemma mem_tsRange_iff (files : List File) (hval : ∀ f ∈ files, f.date.valid)
    {n : Nat} (hn : n ≤ files.length) {k : Key} (hk : KeyGood k) (ix : Nat) :
    nameAt k ix ∈ tsRange files n ↔ (1 ≤ ix ∧ ix ≤ cntKey (files.take n) k) := by
  rw [← rank_mem_iff files n hn k ix]
  unfold tsRange
  rw [List.mem_map]
  constructor
  · rintro ⟨j, hj, hjeq⟩
    rw [List.mem_range] at hj
    have hjlen : j < files.length := by omega
    have hkg : KeyGood (keyOf (files.getD j dfl)) :=
      keyGood_of_valid (hval _ (getD_mem files j hjlen))
    obtain ⟨hkey, hix⟩ := (nameAt_inj hkg hk).mp hjeq
    exact ⟨j, hj, hkey, hix⟩
  · rintro ⟨j, hj, hkey, hix⟩
    refine ⟨j, List.mem_range.mpr hj, ?_⟩
    rw [hkey, hix]

lemma phase1_nil (ts : List FsPath) : phase1 [] ts = [] := rfl

lemma phase1_cons (f : File) (fs : List File) (ts : List FsPath) :
    phase1 (f :: fs) ts =
      (bumpFree ts (ts.length + 1) f)
        :: phase1 fs (ts ++ [(bumpFree ts (ts.length + 1) f).target]) := rfl

lemma phase1_char_aux (files : List File) (hidx : ∀ f ∈ files, f.index = 1)
    (htgt : ∀ f ∈ files, f.target = f.get_target false)
    (hval : ∀ f ∈ files, f.date.valid) :
    ∀ (m n : Nat), n + m = files.length →
      phase1 (files.drop n) (tsRange files n) =
        (List.range m).map (fun d => setIdx (files.getD (n + d) dfl) (rnk files (n + d))) := by
  intro m
  induction m with
  | zero =>
    intro n hn
    rw [List.drop_eq_nil_of_le (by omega), phase1_nil, List.range_zero, List.map_nil]
  | succ m ih =>
    intro n hn
    have hnlt : n < files.length := by omega
    have hgmem := getD_mem files n hnlt
    have hgidx : (files.getD n dfl).index = 1 := hidx _ hgmem
    have hgtgt : (files.getD n dfl).target
        = nameAt (keyOf (files.getD n dfl)) (files.getD n dfl).index := by
      rw [htgt _ hgmem, get_target_false]
    have hkg : KeyGood (keyOf (files.getD n dfl)) := keyGood_of_valid (hval _ hgmem)
    have hcle : cntKey (files.take n) (keyOf (files.getD n dfl)) ≤ n := by
      have h1 := cntKey_le_length (files.take n) (keyOf (files.getD n dfl))
      have h2 : (files.take n).length = n := by
        rw [List.length_take]
        omega
      omega
    rw [drop_eq_getD_cons files n hnlt, phase1_cons]
    have hbump : bumpFree (tsRange files n) ((tsRange files n).length + 1) (files.getD n dfl)
        = setIdx (files.getD n dfl) (rnk files n) := by
      have hm := bumpFree_spec (cntKey (files.take n) (keyOf (files.getD n dfl)))
        ((tsRange files n).length + 1) (tsRange files n) (files.getD n dfl) hgtgt
        (fun d hd => by
          rw [hgidx]
          exact (mem_tsRange_iff files hval (by omega) hkg (1 + d)).mpr ⟨by omega, by omega⟩)
        (by
          rw [hgidx]
          intro hmem
          have := (mem_tsRange_iff files hval (by omega) hkg
            (1 + cntKey (files.take n) (keyOf (files.getD n dfl)))).mp hmem
          omega)
        (by
          rw [tsRange_length]
          omega)
      rw [hgidx] at hm
      rw [hm]
      unfold rnk
      rfl
    rw [hbump, setIdx_target, ← tsRange_succ files n]
    rw [ih (n + 1) (by omega)]
    rw [List.range_succ_eq_map, List.map_cons, List.map_map]
    congr 1
    apply List.map_congr_left
    intro d hd
    have harith : n + 1 + d = n + (d + 1) := by omega
    simp only [Function.comp_apply, Nat.succ_eq_add_one, harith]

lemma phase1_char (files : List File) (hidx : ∀ f ∈ files, f.index = 1)
    (htgt : ∀ f ∈ files, f.target = f.get_target false)
    (hval : ∀ f ∈ files, f.date.valid) :
    phase1 files [] =
      (List.range files.length).map (fun j => setIdx (files.getD j dfl) (rnk files j)) := by
  have h0 := phase1_char_aux files hidx htgt hval files.length 0 (by omega)
  rw [List.drop_zero] at h0
  have hts : tsRange files 0 = [] := by
    unfold tsRange
    rw [List.range_zero, List.map_nil]
  rw [hts] at h0
  rw [h0]
  apply List.map_congr_left
  intro j hj
  rw [Nat.zero_add]

/-! ### Phase two and the resolution characterization -/

lemma phase2File_eq (ts : List FsPath) (f : File) :
    phase2File ts f =
      if f.index = 1 then
        if FsPath.mk f.target.parent ((f.target.stem.dropLast ++ ['2']) ++ f.target.suffix) ∈ ts
        then { f with resolved := true }
        else { f with target := f.get_target true, resolved := true }
      else { f with resolved := true } := by
  unfold phase2File
  dsimp only
  split_ifs <;> rfl

lemma resolveTargets_eq (files : List File) :
    resolveTargets files =
      (phase1 files []).map (phase2File ((phase1 files []).map (fun g => g.target))) := rfl

lemma phase2_setIdx (files : List File)
    (hval : ∀ f ∈ files, f.date.valid) {j : Nat} (hj : j < files.length) :
    phase2File (tsRange files files.length) (setIdx (files.getD j dfl) (rnk files j))
      = finalForm files j := by
  have hgmem := getD_mem files j hj
  have hkg : KeyGood (keyOf (files.getD j dfl)) := keyGood_of_valid (hval _ hgmem)
  have hlb := cntKey_take_lt hj rfl
  rw [phase2File_eq, setIdx_index, setIdx_target]
  unfold finalForm
  dsimp only
  by_cases hr : rnk files j = 1
  · rw [if_pos hr, hr]
    rw [sibling_of_nameAt_one hkg]
    have hmem2 := mem_tsRange_iff files hval (le_refl files.length) hkg 2
    rw [List.take_length] at hmem2
    by_cases hc : 2 ≤ cntKey files (keyOf (files.getD j dfl))
    · rw [if_pos (hmem2.mpr ⟨by omega, hc⟩)]
      rw [if_neg (by omega : ¬ cntKey files (keyOf (files.getD j dfl)) ≤ 1)]
      rfl
    · rw [if_neg (fun hmem => by have := hmem2.mp hmem; omega)]
      rw [if_pos (by omega : cntKey files (keyOf (files.getD j dfl)) ≤ 1)]
      rfl
  · rw [if_neg hr]
    have hcnt2 : 2 ≤ cntKey files (keyOf (files.getD j dfl)) := by
      unfold rnk at hr
      omega
    rw [if_neg (by omega : ¬ cntKey files (keyOf (files.getD j dfl)) ≤ 1)]
    rfl

lemma resolveTargets_char (files : List File) (hidx : ∀ f ∈ files, f.index = 1)
    (htgt : ∀ f ∈ files, f.target = f.get_target false)
    (hval : ∀ f ∈ files, f.date.valid) :
    resolveTargets files = (List.range files.length).map (finalForm files) := by
  rw [resolveTargets_eq, phase1_char files hidx htgt hval]
  have hts : ((List.range files.length).map
        (fun j => setIdx (files.getD j dfl) (rnk files j))).map (fun g => g.target)
      = tsRange files files.length := by
    rw [List.map_map]
    unfold tsRange
    apply List.map_congr_left
    intro j hj
    simp only [Function.comp_apply, setIdx_target]
  rw [hts, List.map_map]
  apply List.map_congr_left
  intro j hj
  rw [List.mem_range] at hj
  simp only [Function.comp_apply]
  exact phase2_setIdx files hval hj

lemma finalForm_target (files : List File) (j : Nat) :
    (finalForm files j).target =
      if cntKey files (keyOf (files.getD j dfl)) ≤ 1 then nameUniq (keyOf (files.getD j dfl))
      else nameAt (keyOf (files.getD j dfl)) (rnk files j) := by
  unfold finalForm
  dsimp only
  split_ifs <;> rfl

lemma two_le_cnt_of_lt (files : List File) {i j : Nat} {k : Key} (hij : i < j)
    (hj : j < files.length) (hki : keyOf (files.getD i dfl) = k)
    (hkj : keyOf (files.getD j dfl) = k) : 2 ≤ cntKey files k := by
  have h1 : cntKey (files.take (i + 1)) k = cntKey (files.take i) k + 1 := by
    rw [cntKey_take_succ files k (by omega), if_pos hki]
  have h2 : cntKey (files.take (i + 1)) k ≤ cntKey (files.take j) k :=
    cntKey_take_mono files k (by omega)
  have h3 := cntKey_take_lt hj hkj
  omega

lemma two_le_cnt (files : List File) {i j : Nat} {k : Key} (hne : i ≠ j)
    (hi : i < files.length) (hj : j < files.length) (hki : keyOf (files.getD i dfl) = k)
    (hkj : keyOf (files.getD j dfl) = k) : 2 ≤ cntKey files k := by
  rcases Nat.lt_or_ge i j with h | h
  · exact two_le_cnt_of_lt files h hj hki hkj
  · exact two_le_cnt_of_lt files (by omega) hi hkj hki

lemma rnk_lt_of_same_key (files : List File) {i j : Nat} (hij : i < j)
    (hj : j < files.length) (hk : keyOf (files.getD i dfl) = keyOf (files.getD j dfl)) :
    rnk files i < rnk files j := by
  unfold rnk
  rw [← hk]
  have h1 : cntKey (files.take (i + 1)) (keyOf (files.getD i dfl))
      = cntKey (files.take i) (keyOf (files.getD i dfl)) + 1 := by
    rw [cntKey_take_succ files _ (by omega), if_pos rfl]
  have h2 : cntKey (files.take (i + 1)) (keyOf (files.getD i dfl))
      ≤ cntKey (files.take j) (keyOf (files.getD i dfl)) :=
    cntKey_take_mono files _ (by omega)
  omega

lemma resolveTargets_nodup (files : List File) (hidx : ∀ f ∈ files, f.index = 1)
    (htgt : ∀ f ∈ files, f.target = f.get_target false)
    (hval : ∀ f ∈ files, f.date.valid) :
    ((resolveTargets files).map (fun f => f.target)).Nodup := by
  rw [resolveTargets_char files hidx htgt hval, List.map_map]
  refine (List.nodup_range _).map_on ?_
  intro i hi j hj heq
  rw [List.mem_range] at hi hj
  simp only [Function.comp_apply] at heq
  rw [finalForm_target, finalForm_target] at heq
  by_contra hne
  have hkgi : KeyGood (keyOf (files.getD i dfl)) :=
    keyGood_of_valid (hval _ (getD_mem files i hi))
  have hkgj : KeyGood (keyOf (files.getD j dfl)) :=
    keyGood_of_valid (hval _ (getD_mem files j hj))
  split_ifs at heq with h1 h2 h2
  · have hkeq := (nameUniq_inj hkgi hkgj).mp heq
    have := two_le_cnt files hne hi hj hkeq rfl
    omega
  · exact nameUniq_ne_nameAt hkgi hkgj heq
  · exact nameUniq_ne_nameAt hkgj hkgi heq.symm
  · obtain ⟨hkeq, hreq⟩ := (nameAt_inj hkgi hkgj).mp heq
    rcases Nat.lt_or_ge i j with h | h
    · have := rnk_lt_of_same_key files h hj hkeq
      omega
    · have hlt : j < i := by omega
      have := rnk_lt_of_same_key files hlt hi hkeq.symm
      omega

/-! ### Construction invariants -/

lemma digitB_le {c : Char} (h : digitB c = true) : 48 ≤ c.toNat ∧ c.toNat ≤ 57 := by
  unfold digitB at h
  rw [Bool.and_eq_true, decide_eq_true_eq, decide_eq_true_eq] at h
  exact h

lemma take4_bound {cs rest : List Char} {y : Nat} (h : take4 cs = some (y, rest)) : y ≤ 9999 := by
  rcases cs with - | ⟨a, cs⟩
  · exact absurd h (by unfold take4; simp)
  rcases cs with - | ⟨b, cs⟩
  · exact absurd h (by unfold take4; simp)
  rcases cs with - | ⟨c, cs⟩
  · exact absurd h (by unfold take4; simp)
  rcases cs with - | ⟨d, cs⟩
  · exact absurd h (by unfold take4; simp)
  unfold take4 at h
  dsimp only at h
  split_ifs at h with hd
  rw [Bool.and_eq_true, Bool.and_eq_true, Bool.and_eq_true] at hd
  obtain ⟨⟨⟨ha, hb⟩, hc⟩, hdd⟩ := hd
  have h1 := digitB_le ha
  have h2 := digitB_le hb
  have h3 := digitB_le hc
  have h4 := digitB_le hdd
  have hinj := Option.some.inj h
  have hy : (((a.toNat - 48) * 10 + (b.toNat - 48)) * 10 + (c.toNat - 48)) * 10
      + (d.toNat - 48) = y := congrArg Prod.fst hinj
  omega

lemma daysInMonth_le (y mo : Nat) : daysInMonth y mo ≤ 31 := by
  unfold daysInMonth
  split_ifs <;> omega

lemma strptime_valid {cs : List Char} {d : NaiveDatetime}
    (h : strptimeCreateDate cs = some d) : d.valid := by
  unfold strptimeCreateDate at h
  simp only [Option.bind_eq_bind, Option.bind_eq_some] at h
  obtain ⟨⟨y, cs1⟩, hy, h⟩ := h
  obtain ⟨cs2, -, h⟩ := h
  obtain ⟨⟨mo, cs3⟩, -, h⟩ := h
  obtain ⟨cs4, -, h⟩ := h
  obtain ⟨⟨da, cs5⟩, -, h⟩ := h
  obtain ⟨cs6, -, h⟩ := h
  obtain ⟨⟨hh, cs7⟩, -, h⟩ := h
  obtain ⟨cs8, -, h⟩ := h
  obtain ⟨⟨mi, cs9⟩, -, h⟩ := h
  obtain ⟨cs10, -, h⟩ := h
  obtain ⟨⟨s, cs11⟩, -, h⟩ := h
  obtain ⟨cs12, -, h⟩ := h
  dsimp only at h
  split_ifs at h with hcond
  obtain ⟨-, h1, h2, h3, h4, h5, h6, h7, h8⟩ := hcond
  obtain rfl := Option.some.inj h
  have hdm := daysInMonth_le y mo
  have hyle := take4_bound hy
  unfold NaiveDatetime.valid
  dsimp only
  omega

lemma localize_valid {off : Int} {nd : NaiveDatetime} (hoff : off.natAbs ≤ 1439)
    (hnd : nd.valid) : (localize off nd).valid := by
  obtain ⟨h1, h2, h3, h4, h5, h6, h7, h8, h9⟩ := hnd
  exact ⟨h1, h2, h3, h4, h5, h6, h7, h8, h9, hoff⟩

lemma get_date_valid {off : Int} {e : Entry} (hoff : off.natAbs ≤ 1439)
    (hct : e.ctime.valid) : (File.get_date off e).valid := by
  unfold File.get_date
  rcases hp : strptimeCreateDate e.exifOut with - | nd
  · exact localize_valid hoff hct
  · exact localize_valid hoff (strptime_valid hp)

lemma File_build_index (off : Int) (dir : String) (e : Entry) :
    (File.build off dir e).index = 1 := rfl

lemma File_build_resolved (off : Int) (dir : String) (e : Entry) :
    (File.build off dir e).resolved = false := rfl

lemma File_build_parent (off : Int) (dir : String) (e : Entry) :
    (File.build off dir e).path.parent = dir := rfl

lemma File_build_target (off : Int) (dir : String) (e : Entry) :
    (File.build off dir e).target = (File.build off dir e).get_target false := rfl

lemma File_build_date (off : Int) (dir : String) (e : Entry) :
    (File.build off dir e).date = File.get_date off e := rfl

lemma list_files_mem {off : Int} {dir : String} {entries : List Entry} {f : File}
    (h : f ∈ FileManager.list_files off dir entries) :
    ∃ e ∈ entries, e.isFile = true ∧ f = File.build off dir e := by
  unfold FileManager.list_files at h
  rw [List.mem_map] at h
  obtain ⟨e, he, rfl⟩ := h
  rw [List.mem_filter] at he
  exact ⟨e, he.1, he.2, rfl⟩

lemma build_ok {off : Int} {dir : String} {entries : List Entry} {m : FileManager}
    (h : FileManager.build off dir entries = .ok m) :
    m = ⟨dir, FileManager.list_files off dir entries⟩ := by
  unfold FileManager.build at h
  dsimp only at h
  split_ifs at h with hl
  exact (Except.ok.inj h).symm

lemma foldl_erase_sublist :
    ∀ (ds : List File) (fs : List File), (ds.foldl (fun fs d => fs.erase d) fs).Sublist fs := by
  intro ds
  induction ds with
  | nil => intro fs; exact List.Sublist.refl fs
  | cons d ds ih =>
    intro fs
    exact (ih (fs.erase d)).trans (List.erase_sublist d fs)

lemma remove_duplicates_sublist (m : FileManager) (dups : List File) :
    (m.remove_duplicates dups).files.Sublist m.files :=
  foldl_erase_sublist dups m.files

lemma manager_files_facts {off : Int} {dir : String} {entries : List Entry} {m : FileManager}
    (hoff : off.natAbs ≤ 1439) (hct : ∀ e ∈ entries, e.ctime.valid)
    (hm : FileManager.build off dir entries = .ok m) (dups : List File) :
    ∀ f ∈ (m.remove_duplicates dups).files,
      f.index = 1 ∧ f.target = f.get_target false ∧ f.date.valid ∧
        f.path.parent = dir ∧ f.resolved = false := by
  intro f hf
  have hf' : f ∈ m.files := (remove_duplicates_sublist m dups).mem hf
  rw [build_ok hm] at hf'
  obtain ⟨e, he, -, rfl⟩ := list_files_mem hf'
  refine ⟨rfl, rfl, ?_, rfl, rfl⟩
  rw [File_build_date]
  exact get_date_valid hoff (hct e he)

/-! ### Lemmas about the rename, delete and duplicate loops -/

lemma renameLoop_nil : renameLoop [] = ([], none) := rfl

lemma renameLoop_cons (f : File) (fs : List File) :
    renameLoop (f :: fs) =
      if f.resolved = false then ([], some RenameError.targetNotResolved)
      else ((f.path, f.target) :: (renameLoop fs).1, (renameLoop fs).2) := rfl

lemma renameLoop_all_resolved :
    ∀ l : List File, (∀ g ∈ l, g.resolved = true) →
      renameLoop l = (l.map (fun g => (g.path, g.target)), none) := by
  intro l
  induction l with
  | nil => intro _; rfl
  | cons f fs ih =>
    intro h
    rw [renameLoop_cons, if_neg (by rw [h f (List.mem_cons_self _ _)]; simp)]
    rw [ih (fun g hg => h g (List.mem_cons_of_mem _ hg))]
    rfl

lemma renameLoop_front_unresolved :
    ∀ (p : List File) (f : File) (r : List File), (∀ g ∈ p, g.resolved = true) →
      f.resolved = false →
      renameLoop (p ++ f :: r)
        = (p.map (fun g => (g.path, g.target)), some RenameError.targetNotResolved) := by
  intro p
  induction p with
  | nil =>
    intro f r _ hf
    rw [List.nil_append, renameLoop_cons, if_pos hf, List.map_nil]
  | cons g p ih =>
    intro f r hp hf
    rw [List.cons_append, renameLoop_cons,
      if_neg (by rw [hp g (List.mem_cons_self _ _)]; simp)]
    rw [ih f r (fun x hx => hp x (List.mem_cons_of_mem _ hx)) hf]
    rfl

lemma renameLoop_mem_move :
    ∀ (p : List File) (f : File) (r : List File), (∀ g ∈ p, g.resolved = true) →
      f.resolved = true → (f.path, f.target) ∈ (renameLoop (p ++ f :: r)).1 := by
  intro p
  induction p with
  | nil =>
    intro f r _ hf
    rw [List.nil_append, renameLoop_cons, if_neg (by rw [hf]; simp)]
    exact List.mem_cons_self _ _
  | cons g p ih =>
    intro f r hp hf
    rw [List.cons_append, renameLoop_cons,
      if_neg (by rw [hp g (List.mem_cons_self _ _)]; simp)]
    exact List.mem_cons_of_mem _ (ih f r (fun x hx => hp x (List.mem_cons_of_mem _ hx)) hf)

lemma rename_files_eq (m : FileManager) :
    m.rename_files =
      if m.files.length = 0 then (m, [], some RenameError.noFileToRename)
      else
        match (renameLoop m.files).2 with
        | none => ({ m with files := [] }, (renameLoop m.files).1, none)
        | some e => (m, (renameLoop m.files).1, some e) := rfl

lemma rename_files_empty {m : FileManager} (h : m.files = []) :
    m.rename_files = (m, [], some RenameError.noFileToRename) := by
  rw [rename_files_eq, if_pos (by rw [h]; rfl)]

lemma deleteLoop_nil (files : List File) : deleteLoop files [] = ([], none) := rfl

lemma deleteLoop_cons (files : List File) (d : File) (ds : List File) :
    deleteLoop files (d :: ds) =
      if d ∈ files then ([], some RenameError.duplicateNotRemoved)
      else (d.path :: (deleteLoop files ds).1, (deleteLoop files ds).2) := rfl

lemma deleteLoop_none :
    ∀ (ds : List File) (files : List File), (∀ d ∈ ds, d ∉ files) →
      deleteLoop files ds = (ds.map (fun d => d.path), none) := by
  intro ds
  induction ds with
  | nil => intro files _; rfl
  | cons d ds ih =>
    intro files h
    rw [deleteLoop_cons, if_neg (h d (List.mem_cons_self _ _))]
    rw [ih files (fun x hx => h x (List.mem_cons_of_mem _ hx))]
    rfl

lemma deleteLoop_error_iff :
    ∀ (ds : List File) (files : List File),
      ((deleteLoop files ds).2 = some RenameError.duplicateNotRemoved ↔
        ∃ d ∈ ds, d ∈ files) := by
  intro ds
  induction ds with
  | nil =>
    intro files
    constructor
    · intro h; exact absurd h (by rw [deleteLoop_nil]; simp)
    · rintro ⟨d, hd, -⟩; simp at hd
  | cons d ds ih =>
    intro files
    rw [deleteLoop_cons]
    by_cases hd : d ∈ files
    · rw [if_pos hd]
      constructor
      · intro _; exact ⟨d, List.mem_cons_self _ _, hd⟩
      · intro _; rfl
    · rw [if_neg hd]
      constructor
      · intro h
        obtain ⟨x, hx, hxf⟩ := (ih files).mp h
        exact ⟨x, List.mem_cons_of_mem _ hx, hxf⟩
      · rintro ⟨x, hx, hxf⟩
        rcases List.mem_cons.mp hx with rfl | hx'
        · exact absurd hxf hd
        · exact (ih files).mpr ⟨x, hx', hxf⟩

lemma deleteLoop_front :
    ∀ (p : List File) (d : File) (r : List File) (files : List File),
      (∀ g ∈ p, g ∉ files) → d ∈ files →
      deleteLoop files (p ++ d :: r)
        = (p.map (fun g => g.path), some RenameError.duplicateNotRemoved) := by
  intro p
  induction p with
  | nil =>
    intro d r files _ hd
    rw [List.nil_append, deleteLoop_cons, if_pos hd, List.map_nil]
  | cons g p ih =>
    intro d r files hp hd
    rw [List.cons_append, deleteLoop_cons, if_neg (hp g (List.mem_cons_self _ _))]
    rw [ih d r files (fun x hx => hp x (List.mem_cons_of_mem _ hx)) hd]
    rfl

lemma findDupAux_nil (seen : List (List Nat)) : findDupAux seen [] = [] := rfl

lemma findDupAux_cons (seen : List (List Nat)) (f : File) (fs : List File) :
    findDupAux seen (f :: fs) =
      if f.hash_ ∈ seen then f :: findDupAux seen fs
      else findDupAux (seen ++ [f.hash_]) fs := rfl

lemma findDupAux_empty :
    ∀ (l : List File) (seen : List (List Nat)),
      (l.map (fun f => f.hash_)).Nodup → (∀ f ∈ l, f.hash_ ∉ seen) →
      findDupAux seen l = [] := by
  intro l
  induction l with
  | nil => intro seen _ _; rfl
  | cons f fs ih =>
    intro seen hnd hseen
    rw [findDupAux_cons, if_neg (hseen f (List.mem_cons_self _ _))]
    rw [List.map_cons, List.nodup_cons] at hnd
    apply ih (seen ++ [f.hash_]) hnd.2
    intro g hg
    rw [List.mem_append]
    rintro (h | h)
    · exact hseen g (List.mem_cons_of_mem _ hg) h
    · rw [List.mem_singleton] at h
      exact hnd.1 (h ▸ List.mem_map_of_mem (fun x => x.hash_) hg)

lemma findDupAux_all_seen :
    ∀ (l : List File) (seen : List (List Nat)), (∀ f ∈ l, f.hash_ ∈ seen) →
      findDupAux seen l = l := by
  intro l
  induction l with
  | nil => intro seen _; rfl
  | cons f fs ih =>
    intro seen h
    rw [findDupAux_cons, if_pos (h f (List.mem_cons_self _ _))]
    rw [ih seen (fun x hx => h x (List.mem_cons_of_mem _ hx))]

/-! ### Claim theorems on duplicates, deletion and renaming -/

/-- C6: find_duplicates returns exactly the records whose fingerprint was
already seen earlier in the scan: with pairwise-distinct fingerprints it
returns the empty list (and, being a pure query, the record count stays as
it was), and with all fingerprints identical it returns every record except
the first-seen one, hence one fewer than the record count. -/
theorem find_duplicates_characterization (m : FileManager) :
    ((m.files.map (fun f => f.hash_)).Nodup →
        m.find_duplicates = [] ∧ m.files.length = m.files.length) ∧
    (∀ hv : List Nat, (∀ f ∈ m.files, f.hash_ = hv) → 2 ≤ m.files.length →
        m.find_duplicates = m.files.tail ∧
          m.find_duplicates.length = m.files.length - 1) := by
  constructor
  · intro hnd
    exact ⟨findDupAux_empty m.files [] hnd (by simp), rfl⟩
  · intro hv hall hlen
    rcases hf : m.files with - | ⟨f, fs⟩
    · rw [hf] at hlen
      simp at hlen
    · have hdup : m.find_duplicates = fs := by
        unfold FileManager.find_duplicates
        rw [hf, findDupAux_cons, if_neg (by simp)]
        apply findDupAux_all_seen
        intro g hg
        have h1 : g.hash_ = hv := hall g (by rw [hf]; exact List.mem_cons_of_mem _ hg)
        have h2 : f.hash_ = hv := hall f (by rw [hf]; exact List.mem_cons_self _ _)
        rw [List.nil_append, h1, ← h2]
        exact List.mem_singleton.mpr rfl
      constructor
      · simp [hdup, hf]
      · simp [hdup, hf]

/-- Amended C7: within rename_files, a record with a false resolved flag
raises TargetNotResolvedError before any I/O for that record (records before
it are already moved); a resolved record is physically moved from its path
to its target; the Record's path field is never updated in place — on a full
pass the manager clears its list wholesale, and on an error the list is left
exactly as it was. -/
theorem rename_checks_resolved (m : FileManager) (p : List File) (f : File) (r : List File)
    (hsplit : m.files = p ++ f :: r) (hp : ∀ g ∈ p, g.resolved = true) :
    (f.resolved = false →
        m.rename_files
          = (m, p.map (fun g => (g.path, g.target)), some RenameError.targetNotResolved)) ∧
    (f.resolved = true → (f.path, f.target) ∈ m.rename_files.2.1) ∧
    (∀ m' mv e, m.rename_files = (m', mv, e) →
        (e = none → m'.files = []) ∧ (e ≠ none → m' = m)) := by
  have hne : m.files.length ≠ 0 := by rw [hsplit]; simp
  refine ⟨?_, ?_, ?_⟩
  · intro hf
    rw [rename_files_eq, if_neg hne, hsplit, renameLoop_front_unresolved p f r hp hf]
  · intro hf
    have hmem := renameLoop_mem_move p f r hp hf
    rw [rename_files_eq, if_neg hne, hsplit]
    rcases hl : (renameLoop (p ++ f :: r)).2 with - | e <;> dsimp only <;> exact hmem
  · intro m' mv e h
    rw [rename_files_eq] at h
    split_ifs at h with hlen
    · constructor
      · intro he
        rw [he] at h
        exact absurd (congrArg (fun x => x.2.2) h) (by simp)
      · intro _
        exact (congrArg (fun x => x.1) h).symm
    · rcases hl : (renameLoop m.files).2 with - | e' <;> rw [hl] at h <;> dsimp only at h
      · constructor
        · intro _
          have h1 := congrArg (fun x => x.1) h
          dsimp only at h1
          rw [← h1]
        · intro hne'
          have h3 := congrArg (fun x => x.2.2) h
          dsimp only at h3
          exact absurd h3.symm hne'
      · constructor
        · intro he
          have h3 := congrArg (fun x => x.2.2) h
          dsimp only at h3
          rw [he] at h3
          exact absurd h3 (by simp)
        · intro _
          exact (congrArg (fun x => x.1) h).symm

/-- C8: a successful rename pass empties the record list, and with the list
empty every later invocation of rename_files raises NoFileToRenameError,
returning the manager unchanged and performing no move. -/
theorem rename_files_depletes_once (m m' : FileManager) (mv : List (FsPath × FsPath)) (n : Nat)
    (h : m.rename_files = (m', mv, none)) :
    m'.files = [] ∧
      (stepRename^[n] m').rename_files = (m', [], some RenameError.noFileToRename) := by
  rw [rename_files_eq] at h
  split_ifs at h with hlen
  · exact absurd (congrArg (fun x => x.2.2) h) (by simp)
  · rcases hl : (renameLoop m.files).2 with - | e' <;> rw [hl] at h <;> dsimp only at h
    · have h1 := congrArg (fun x => x.1) h
      dsimp only at h1
      have hfiles : m'.files = [] := by rw [← h1]
      have hfix : ∀ k, stepRename^[k] m' = m' := by
        intro k
        induction k with
        | zero => rfl
        | succ k ih =>
          rw [Function.iterate_succ_apply', ih]
          unfold stepRename
          rw [rename_files_empty hfiles]
      exact ⟨hfiles, by rw [hfix n, rename_files_empty hfiles]⟩
    · exact absurd (congrArg (fun x => x.2.2) h) (by simp)

/-- C9: delete_duplicates raises DuplicateNotRemovedError exactly when some
given record is still an element of the managed list; when every given
record has been removed, the files at all their paths are deleted, and when
the records before a still-present one are removed, exactly their paths are
deleted before the error is raised. -/
theorem delete_duplicates_contract (m : FileManager) (dups : List File) :
    ((m.delete_duplicates dups).2 = some RenameError.duplicateNotRemoved ↔
        ∃ d ∈ dups, d ∈ m.files) ∧
    ((∀ d ∈ dups, d ∉ m.files) →
        m.delete_duplicates dups = (dups.map (fun d => d.path), none)) ∧
    (∀ p d r, dups = p ++ d :: r → (∀ g ∈ p, g ∉ m.files) → d ∈ m.files →
        m.delete_duplicates dups
          = (p.map (fun g => g.path), some RenameError.duplicateNotRemoved)) := by
  refine ⟨deleteLoop_error_iff dups m.files, ?_, ?_⟩
  · intro h
    exact deleteLoop_none dups m.files h
  · intro p d r hsplit hpre hd
    show deleteLoop m.files dups = _
    rw [hsplit]
    exact deleteLoop_front p d r m.files hpre hd

/-- C10: when the record list holds at least one resolved record before the
first unresolved one, rename_files physically moves every record preceding
that first unresolved record, then raises TargetNotResolvedError, leaving
the record list neither cleared nor restored — the manager state is exactly
as before the call while the listed moves already happened on disk. -/
theorem rename_files_partial_failure (m : FileManager) (p : List File) (f : File)
    (r : List File) (hsplit : m.files = p ++ f :: r) (_hpne : p ≠ [])
    (hp : ∀ g ∈ p, g.resolved = true) (hf : f.resolved = false) :
    m.rename_files
      = (m, p.map (fun g => (g.path, g.target)), some RenameError.targetNotResolved) := by
  have hne : m.files.length ≠ 0 := by rw [hsplit]; simp
  rw [rename_files_eq, if_neg hne, hsplit, renameLoop_front_unresolved p f r hp hf]

/-- Amended C2: the timestamp attached at load time is the parsed metadata
CreateDate whenever the exiftool output parses in the expected format, and
only otherwise the filesystem's last-status-change time; no minimum over the
candidates is taken. -/
theorem get_date_metadata_else_ctime (off : Int) (e : Entry) :
    (∃ d, strptimeCreateDate e.exifOut = some d ∧ File.get_date off e = localize off d) ∨
      (strptimeCreateDate e.exifOut = none ∧ File.get_date off e = localize off e.ctime) := by
  rcases hp : strptimeCreateDate e.exifOut with - | d
  · right
    refine ⟨rfl, ?_⟩
    unfold File.get_date
    rw [hp]
  · left
    refine ⟨d, rfl, ?_⟩
    unfold File.get_date
    rw [hp]

/-- Counterexample to C2 as stated: this file's metadata date (2008) parses
and is strictly newer than the filesystem status-change candidate (2005),
yet get_date selects the metadata date, not the minimum candidate. -/
theorem get_date_not_minimum_cex :
    (localize (-180) cexEntry2.ctime).instant < (File.get_date (-180) cexEntry2).instant ∧
      File.get_date (-180) cexEntry2 ≠ localize (-180) cexEntry2.ctime := by
  constructor
  · decide
  · decide

/-- Amended C3: construction lists the plain files of the directory
non-recursively, builds one Record per listed file, and stores the records
in directory-listing order; no sorting is applied. -/
theorem construction_listing_order (off : Int) (dir : String) (entries : List Entry)
    (m : FileManager) (hm : FileManager.build off dir entries = .ok m) :
    m.path = dir ∧ m.files = (entries.filter (fun e => e.isFile)).map (File.build off dir) ∧
      m.files.length = (entries.filter (fun e => e.isFile)).length := by
  obtain rfl := build_ok hm
  refine ⟨rfl, rfl, ?_⟩
  show ((entries.filter (fun e => e.isFile)).map (File.build off dir)).length = _
  rw [List.length_map]

/-- Counterexample to C3 as stated: a directory listed with the newer-dated
file first constructs records in listing order, which is not ascending in
the Record order (timestamp, then sequence). -/
theorem construction_not_sorted_cex :
    FileManager.build (-180) "d" orderEntries = Except.ok orderManager ∧
      ¬ List.Pairwise specRecordLE orderManager.files := by
  constructor
  · rfl
  · decide

/-- Counterexample to C7 as stated: on a manager holding a resolved record
(path different from target) followed by an unresolved one, the resolved
record's move is performed, yet after the call the record surviving in the
manager still carries its old path — the Record's path is never updated to
equal its target. -/
theorem rename_path_not_updated_cex :
    mixedResolveManager.rename_files
        = (mixedResolveManager, [(fileA.path, fileA.target)], some RenameError.targetNotResolved) ∧
      fileA.resolved = true ∧ fileA.path ≠ fileA.target ∧
      mixedResolveManager.rename_files.1.files.getD 0 dfl = fileA := by
  refine ⟨rfl, rfl, by decide, rfl⟩

/-- C1: for a manager constructed over a directory (valid filesystem dates,
a tzinfo-bounded local offset), with duplicates removed and the surviving
record paths pairwise distinct, resolve_targets leaves the records with
pairwise-distinct targets: the set of target values has exactly as many
elements as there are records. -/
theorem resolve_targets_unique_targets (off : Int) (dir : String) (entries : List Entry)
    (dups : List File) (m : FileManager) (hoff : off.natAbs ≤ 1439)
    (hct : ∀ e ∈ entries, e.ctime.valid)
    (hm : FileManager.build off dir entries = .ok m)
    (_hpaths : ((m.remove_duplicates dups).files.map (fun f => f.path)).Nodup) :
    ((m.remove_duplicates dups).resolve_targets.files.map (fun f => f.target)).Nodup ∧
      ((m.remove_duplicates dups).resolve_targets.files.map (fun f => f.target)).toFinset.card
        = (m.remove_duplicates dups).resolve_targets.files.length := by
  have hfacts := manager_files_facts hoff hct hm dups
  have hnodup : ((resolveTargets (m.remove_duplicates dups).files).map
      (fun f => f.target)).Nodup :=
    resolveTargets_nodup _ (fun f hf => (hfacts f hf).1) (fun f hf => (hfacts f hf).2.1)
      (fun f hf => (hfacts f hf).2.2.1)
  refine ⟨hnodup, ?_⟩
  show ((resolveTargets (m.remove_duplicates dups).files).map (fun f => f.target)).toFinset.card
    = (resolveTargets (m.remove_duplicates dups).files).length
  rw [List.toFinset_card_of_nodup hnodup, List.length_map]

/-! ### Idempotence of target resolution -/

lemma phase1_id_of_nodup :
    ∀ (l : List File) (acc : List FsPath),
      (acc ++ l.map (fun f => f.target)).Nodup → phase1 l acc = l := by
  intro l
  induction l with
  | nil => intro acc _; rfl
  | cons f fs ih =>
    intro acc h
    rw [List.map_cons] at h
    have hnot : f.target ∉ acc := by
      intro hmem
      rcases List.nodup_append.mp h with ⟨-, -, hdisj⟩
      exact hdisj hmem (List.mem_cons_self _ _)
    rw [phase1_cons, bumpFree_of_not_mem hnot]
    congr 1
    apply ih
    rw [List.append_cons] at h
    exact h

lemma finalForm_index (files : List File) (j : Nat) :
    (finalForm files j).index = rnk files j := by
  unfold finalForm
  dsimp only
  split_ifs <;> rfl

lemma finalForm_resolved (files : List File) (j : Nat) :
    (finalForm files j).resolved = true := by
  unfold finalForm
  dsimp only
  split_ifs <;> rfl

lemma finalForm_keyOf (files : List File) (j : Nat) :
    keyOf (finalForm files j) = keyOf (files.getD j dfl) := by
  unfold finalForm
  dsimp only
  split_ifs <;> rfl

lemma resolved_update_id {f : File} (h : f.resolved = true) :
    { f with resolved := true } = f := by
  cases f
  simp only [File.mk.injEq, and_true, true_and]
  exact h.symm

lemma target_resolved_update_id {f : File} {t : FsPath} (ht : f.target = t)
    (hres : f.resolved = true) : { f with target := t, resolved := true } = f := by
  cases f
  simp only [File.mk.injEq, and_true, true_and]
  exact ⟨ht.symm, hres.symm⟩

lemma resolveTargets_idem_list (files : List File) (hidx : ∀ f ∈ files, f.index = 1)
    (htgt : ∀ f ∈ files, f.target = f.get_target false)
    (hval : ∀ f ∈ files, f.date.valid) :
    resolveTargets (resolveTargets files) = resolveTargets files := by
  have hchar := resolveTargets_char files hidx htgt hval
  have hnodup := resolveTargets_nodup files hidx htgt hval
  have hp1 : phase1 (resolveTargets files) [] = resolveTargets files :=
    phase1_id_of_nodup _ [] (by rw [List.nil_append]; exact hnodup)
  rw [resolveTargets_eq (resolveTargets files), hp1]
  have hmem_form : ∀ x ∈ resolveTargets files, ∃ j, j < files.length ∧ x = finalForm files j := by
    intro x hx
    rw [hchar, List.mem_map] at hx
    obtain ⟨j, hj, rfl⟩ := hx
    exact ⟨j, List.mem_range.mp hj, rfl⟩
  refine (List.map_congr_left ?_).trans (List.map_id _)
  intro x hx
  obtain ⟨j, hj, rfl⟩ := hmem_form x hx
  show phase2File ((resolveTargets files).map (fun g => g.target)) (finalForm files j)
    = finalForm files j
  have hgmem := getD_mem files j hj
  have hkg : KeyGood (keyOf (files.getD j dfl)) := keyGood_of_valid (hval _ hgmem)
  have hlb := cntKey_take_lt hj rfl
  rw [phase2File_eq]
  by_cases hc : cntKey files (keyOf (files.getD j dfl)) ≤ 1
  · have hr1 : rnk files j = 1 := by unfold rnk; omega
    have hidx1 : (finalForm files j).index = 1 := by rw [finalForm_index, hr1]
    have htgt1 : (finalForm files j).target = nameUniq (keyOf (files.getD j dfl)) := by
      rw [finalForm_target, if_pos hc]
    rw [if_pos hidx1]
    split_ifs with hsib
    · exact resolved_update_id (finalForm_resolved files j)
    · refine target_resolved_update_id ?_ (finalForm_resolved files j)
      rw [get_target_true, finalForm_keyOf, htgt1]
  · have htgtS : (finalForm files j).target
        = nameAt (keyOf (files.getD j dfl)) (rnk files j) := by
      rw [finalForm_target, if_neg hc]
    by_cases hr : rnk files j = 1
    · have hidx1 : (finalForm files j).index = 1 := by rw [finalForm_index, hr]
      rw [if_pos hidx1]
      rw [hr] at htgtS
      rw [htgtS, sibling_of_nameAt_one hkg]
      have hsibmem : nameAt (keyOf (files.getD j dfl)) 2
          ∈ (resolveTargets files).map (fun g => g.target) := by
        have h2le : 2 ≤ cntKey files (keyOf (files.getD j dfl)) := by omega
        obtain ⟨j2, hj2, hk2, hr2⟩ :=
          (rank_mem_iff files files.length (le_refl _) (keyOf (files.getD j dfl)) 2).mpr
            ⟨by omega, by rw [List.take_length]; exact h2le⟩
        have htj2 : (finalForm files j2).target = nameAt (keyOf (files.getD j dfl)) 2 := by
          rw [finalForm_target, hk2, if_neg (by omega), hr2]
        rw [hchar, List.map_map, List.mem_map]
        exact ⟨j2, List.mem_range.mpr hj2, htj2⟩
      rw [if_pos hsibmem]
      exact target_resolved_update_id htgtS (finalForm_resolved files j)
    · rw [if_neg (fun hcontra => hr (by rw [← finalForm_index files j]; exact hcontra))]
      exact resolved_update_id (finalForm_resolved files j)

/-- C4: for a manager constructed over a directory (valid filesystem dates,
tzinfo-bounded offset), with duplicates removed, calling resolve_targets a
second time with no intervening renames leaves every record — in particular
every record's target, and hence the whole target assignment — exactly as
the first call left it. -/
theorem resolve_targets_idempotent (off : Int) (dir : String) (entries : List Entry)
    (dups : List File) (m : FileManager) (hoff : off.natAbs ≤ 1439)
    (hct : ∀ e ∈ entries, e.ctime.valid)
    (hm : FileManager.build off dir entries = .ok m) :
    (m.remove_duplicates dups).resolve_targets.resolve_targets
      = (m.remove_duplicates dups).resolve_targets := by
  have hfacts := manager_files_facts hoff hct hm dups
  have h := resolveTargets_idem_list (m.remove_duplicates dups).files
    (fun f hf => (hfacts f hf).1) (fun f hf => (hfacts f hf).2.1)
    (fun f hf => (hfacts f hf).2.2.1)
  unfold FileManager.resolve_targets
  dsimp only
  rw [h]

/-! ### The singleton and group shape of resolved targets -/

lemma countP_congr_files :
    ∀ (l : List File) (p q : File → Bool), (∀ a ∈ l, p a = q a) →
      l.countP p = l.countP q := by
  intro l
  induction l with
  | nil => intro p q _; rfl
  | cons a l ih =>
    intro p q h
    rw [List.countP_cons, List.countP_cons, ih p q (fun x hx => h x (List.mem_cons_of_mem _ hx)),
      h a (List.mem_cons_self _ _)]

lemma getD_map_range (F : Nat → File) (n j : Nat) (h : j < n) :
    ((List.range n).map F).getD j dfl = F j := by
  rw [List.getD_eq_getElem _ _ (by simp [h]), List.getElem_map, List.getElem_range]

lemma sameStamp_eq_keyOf {files : List File} {dir : String}
    (hval : ∀ f ∈ files, f.date.valid) (hpar : ∀ f ∈ files, f.path.parent = dir)
    {g : File} (hg : g ∈ files) :
    ∀ x ∈ files, (fun x => decide (keyOf x = keyOf g)) x = sameStamp g x := by
  intro x hx
  unfold sameStamp
  rw [decide_eq_decide]
  constructor
  · intro h
    have hfmt : fmtDate x.date = fmtDate g.date := congrArg (fun k => k.2.1) h
    have hsuf : x.path.suffix = g.path.suffix := congrArg (fun k => k.2.2) h
    exact ⟨fmtDate_inj (hval x hx) (hval g hg) hfmt, hsuf⟩
  · rintro ⟨hd, hs⟩
    unfold keyOf
    rw [hd, hs, hpar x hx, hpar g hg]

/-- Amended C5: after resolve_targets (records as construction produces
them: index 1, initial targets, valid dates, one common parent directory), a
record that is the only one sharing both its timestamp and its extension
receives the unique, suffix-free target — the formatted timestamp plus the
extension — while each record in a group of two or more sharing timestamp
and extension keeps a suffixed target, numbered 1, 2, ... in processing
order. -/
theorem resolve_targets_singleton_group_ext (files : List File) (dir : String)
    (hidx : ∀ f ∈ files, f.index = 1)
    (htgt : ∀ f ∈ files, f.target = f.get_target false)
    (hval : ∀ f ∈ files, f.date.valid)
    (hpar : ∀ f ∈ files, f.path.parent = dir)
    (j : Nat) (hj : j < files.length) :
    (files.countP (sameStamp (files.getD j dfl)) = 1 →
        (resolveTargets files).getD j dfl
          = File.mk (files.getD j dfl).path (files.getD j dfl).hash_
              (files.getD j dfl).date
              (FsPath.mk dir (fmtDate (files.getD j dfl).date
                ++ (files.getD j dfl).path.suffix))
              1 true) ∧
    (2 ≤ files.countP (sameStamp (files.getD j dfl)) →
        (resolveTargets files).getD j dfl
          = File.mk (files.getD j dfl).path (files.getD j dfl).hash_
              (files.getD j dfl).date
              (FsPath.mk dir (fmtDate (files.getD j dfl).date
                ++ (' ' :: (natDigits (1 + (files.take j).countP
                      (sameStamp (files.getD j dfl)))
                  ++ (files.getD j dfl).path.suffix))))
              (1 + (files.take j).countP (sameStamp (files.getD j dfl))) true) := by
  have hchar := resolveTargets_char files hidx htgt hval
  have hgmem := getD_mem files j hj
  have hout : (resolveTargets files).getD j dfl = finalForm files j := by
    rw [hchar]
    exact getD_map_range _ _ _ hj
  have hcnt_all : cntKey files (keyOf (files.getD j dfl))
      = files.countP (sameStamp (files.getD j dfl)) :=
    countP_congr_files files _ _ (sameStamp_eq_keyOf hval hpar hgmem)
  have hcnt_take : cntKey (files.take j) (keyOf (files.getD j dfl))
      = (files.take j).countP (sameStamp (files.getD j dfl)) :=
    countP_congr_files (files.take j) _ _
      (fun x hx => sameStamp_eq_keyOf hval hpar hgmem x (List.take_subset j files hx))
  have hlb := cntKey_take_lt hj (k := keyOf (files.getD j dfl)) rfl
  have hpg := hpar _ hgmem
  have hgidx := hidx _ hgmem
  constructor
  · intro hone
    have hcle : cntKey files (keyOf (files.getD j dfl)) ≤ 1 := by omega
    have hr1 : rnk files j = 1 := by unfold rnk; omega
    rw [hout]
    unfold finalForm
    dsimp only
    rw [if_pos hcle, hr1]
    unfold nameUniq keyOf
    dsimp only
    rw [hpg]
  · intro htwo
    have hcgt : ¬ cntKey files (keyOf (files.getD j dfl)) ≤ 1 := by omega
    have hrnk : rnk files j
        = 1 + (files.take j).countP (sameStamp (files.getD j dfl)) := by
      unfold rnk
      rw [hcnt_take]
    rw [hout]
    unfold finalForm
    dsimp only
    rw [if_neg hcgt, hrnk]
    unfold nameAt keyOf
    dsimp only
    rw [hpg]

/-- Counterexample to C5 as stated: two records share the timestamp but not
the extension; after resolve_targets both receive the unique, suffix-free
target name, not the suffixed pair numbered 1 and 2 that the claim asserts
for a group of two records sharing a timestamp. -/
theorem resolve_targets_group_by_timestamp_cex :
    FileManager.build (-180) "d" mixedEntries = Except.ok mixedManager ∧
      2 ≤ mixedManager.files.countP
        (fun x => decide (x.date = (mixedManager.files.getD 0 dfl).date)) ∧
      (mixedManager.resolve_targets.files.getD 0 dfl).target
        = ⟨"d", fmtDate demoDate ++ ".jpg".toList⟩ ∧
      (mixedManager.resolve_targets.files.getD 1 dfl).target
        = ⟨"d", fmtDate demoDate ++ ".png".toList⟩ ∧
      (mixedManager.resolve_targets.files.getD 0 dfl).target
        ≠ ⟨"d", fmtDate demoDate ++ (' ' :: (natDigits 1 ++ ".jpg".toList))⟩ ∧
      (mixedManager.resolve_targets.files.getD 1 dfl).target
        ≠ ⟨"d", fmtDate demoDate ++ (' ' :: (natDigits 2 ++ ".png".toList))⟩ := by
  refine ⟨rfl, by decide, by decide, by decide, by decide, by decide⟩

/-! ### Witnesses -/

/-- Witness for C1 at a concrete two-file directory. -/
theorem resolve_targets_unique_targets_witness :
    ((-180 : Int)).natAbs ≤ 1439 ∧ (∀ e ∈ demoEntries, e.ctime.valid) ∧
    FileManager.build (-180) "d" demoEntries = Except.ok demoManager ∧
    ((demoManager.remove_duplicates []).files.map (fun f => f.path)).Nodup ∧
    (((demoManager.remove_duplicates []).resolve_targets.files.map (fun f => f.target)).Nodup ∧
      ((demoManager.remove_duplicates []).resolve_targets.files.map
          (fun f => f.target)).toFinset.card
        = (demoManager.remove_duplicates []).resolve_targets.files.length) :=
  ⟨by decide, by decide, rfl, by decide,
   resolve_targets_unique_targets (-180) "d" demoEntries [] demoManager (by decide) (by decide)
     rfl (by decide)⟩

/-- Witness for amended C3 at a concrete directory. -/
theorem construction_listing_order_witness :
    FileManager.build (-180) "d" demoEntries = Except.ok demoManager ∧
    (demoManager.path = "d" ∧
      demoManager.files = (demoEntries.filter (fun e => e.isFile)).map (File.build (-180) "d") ∧
      demoManager.files.length = (demoEntries.filter (fun e => e.isFile)).length) :=
  ⟨rfl, construction_listing_order (-180) "d" demoEntries demoManager rfl⟩

/-- Witness for C4 at a concrete two-file directory. -/
theorem resolve_targets_idempotent_witness :
    ((-180 : Int)).natAbs ≤ 1439 ∧ (∀ e ∈ demoEntries, e.ctime.valid) ∧
    FileManager.build (-180) "d" demoEntries = Except.ok demoManager ∧
    (demoManager.remove_duplicates []).resolve_targets.resolve_targets
      = (demoManager.remove_duplicates []).resolve_targets :=
  ⟨by decide, by decide, rfl,
   resolve_targets_idempotent (-180) "d" demoEntries [] demoManager (by decide) (by decide) rfl⟩

/-- Witness for amended C5: a singleton-date record becomes suffix-free, a
two-record group keeps suffixed names numbered in processing order. -/
theorem resolve_targets_singleton_group_ext_witness :
    (∀ f ∈ group5Manager.files, f.index = 1) ∧
    (∀ f ∈ group5Manager.files, f.target = f.get_target false) ∧
    (∀ f ∈ group5Manager.files, f.date.valid) ∧
    (∀ f ∈ group5Manager.files, f.path.parent = "d") ∧
    group5Manager.files.countP (sameStamp (group5Manager.files.getD 0 dfl)) = 1 ∧
    (resolveTargets group5Manager.files).getD 0 dfl
      = File.mk (group5Manager.files.getD 0 dfl).path (group5Manager.files.getD 0 dfl).hash_
          (group5Manager.files.getD 0 dfl).date
          (FsPath.mk "d" (fmtDate (group5Manager.files.getD 0 dfl).date
            ++ (group5Manager.files.getD 0 dfl).path.suffix)) 1 true ∧
    2 ≤ group5Manager.files.countP (sameStamp (group5Manager.files.getD 1 dfl)) ∧
    (resolveTargets group5Manager.files).getD 1 dfl
      = File.mk (group5Manager.files.getD 1 dfl).path (group5Manager.files.getD 1 dfl).hash_
          (group5Manager.files.getD 1 dfl).date
          (FsPath.mk "d" (fmtDate (group5Manager.files.getD 1 dfl).date
            ++ (' ' :: (natDigits (1 + (group5Manager.files.take 1).countP
                  (sameStamp (group5Manager.files.getD 1 dfl)))
              ++ (group5Manager.files.getD 1 dfl).path.suffix))))
          (1 + (group5Manager.files.take 1).countP
            (sameStamp (group5Manager.files.getD 1 dfl))) true :=
  ⟨by decide, by decide, by decide, by decide, by decide,
   (resolve_targets_singleton_group_ext group5Manager.files "d" (by decide) (by decide)
      (by decide) (by decide) 0 (by decide)).1 (by decide),
   by decide,
   (resolve_targets_singleton_group_ext group5Manager.files "d" (by decide) (by decide)
      (by decide) (by decide) 1 (by decide)).2 (by decide)⟩

/-- Witness for C6: a manager with distinct fingerprints yields no
duplicates; one with three identical fingerprints yields all but the first
record. -/
theorem find_duplicates_characterization_witness :
    (distinctHashManager.files.map (fun f => f.hash_)).Nodup ∧
    distinctHashManager.find_duplicates = [] ∧
    (∀ f ∈ sameHashManager.files, f.hash_ = [7]) ∧
    2 ≤ sameHashManager.files.length ∧
    (sameHashManager.find_duplicates = sameHashManager.files.tail ∧
      sameHashManager.find_duplicates.length = sameHashManager.files.length - 1) :=
  ⟨by decide, ((find_duplicates_characterization distinctHashManager).1 (by decide)).1,
   by decide, by decide,
   (find_duplicates_characterization sameHashManager).2 [7] (by decide) (by decide)⟩

/-- Witness for amended C7: the unresolved second record aborts the pass
after the first record's move; on a fully resolved manager a record's move
is performed. -/
theorem rename_checks_resolved_witness :
    mixedResolveManager.files = [fileA] ++ fileB :: [] ∧
    (∀ g ∈ [fileA], g.resolved = true) ∧
    fileB.resolved = false ∧
    mixedResolveManager.rename_files
      = (mixedResolveManager, [fileA].map (fun g => (g.path, g.target)),
          some RenameError.targetNotResolved) ∧
    fileA.resolved = true ∧
    (fileA.path, fileA.target) ∈ resolvedManager.rename_files.2.1 :=
  ⟨rfl, by decide, rfl,
   (rename_checks_resolved mixedResolveManager [fileA] fileB [] rfl (by decide)).1 rfl,
   rfl,
   (rename_checks_resolved resolvedManager [] fileA [fileC] rfl (by decide)).2.1 rfl⟩

/-- Witness for C8: after a successful pass the manager is empty and stays
so; repeated calls keep failing with the depletion error. -/
theorem rename_files_depletes_once_witness :
    resolvedManager.rename_files
      = (FileManager.mk "d" [], [(fileA.path, fileA.target), (fileC.path, fileC.target)],
          none) ∧
    (FileManager.mk "d" []).files = [] ∧
    (stepRename^[2] (FileManager.mk "d" [])).rename_files
      = (FileManager.mk "d" [], [], some RenameError.noFileToRename) :=
  ⟨rfl,
   (rename_files_depletes_once resolvedManager (FileManager.mk "d" [])
      [(fileA.path, fileA.target), (fileC.path, fileC.target)] 2 rfl).1,
   (rename_files_depletes_once resolvedManager (FileManager.mk "d" [])
      [(fileA.path, fileA.target), (fileC.path, fileC.target)] 2 rfl).2⟩

/-- Witness for C9: removed duplicates are deleted; a still-present one
raises the error. -/
theorem delete_duplicates_contract_witness :
    ((distinctHashManager.delete_duplicates [fileC]).2
        = some RenameError.duplicateNotRemoved ↔ ∃ d ∈ [fileC], d ∈ distinctHashManager.files) ∧
    (∀ d ∈ [fileC], d ∉ distinctHashManager.files) ∧
    distinctHashManager.delete_duplicates [fileC] = ([fileC].map (fun d => d.path), none) ∧
    distinctHashManager.delete_duplicates [fileA]
      = (([] : List File).map (fun g => g.path), some RenameError.duplicateNotRemoved) :=
  ⟨(delete_duplicates_contract distinctHashManager [fileC]).1, by decide,
   (delete_duplicates_contract distinctHashManager [fileC]).2.1 (by decide),
   (delete_duplicates_contract distinctHashManager [fileA]).2.2 [] fileA [] rfl (by decide)
     (by decide)⟩

/-- Witness for C10 at a concrete manager with one resolved record before an
unresolved one. -/
theorem rename_files_partial_failure_witness :
    mixedResolveManager.files = [fileA] ++ fileB :: [] ∧
    ([fileA] : List File) ≠ [] ∧
    (∀ g ∈ [fileA], g.resolved = true) ∧
    fileB.resolved = false ∧
    mixedResolveManager.rename_files
      = (mixedResolveManager, [fileA].map (fun g => (g.path, g.target)),
          some RenameError.targetNotResolved) :=
  ⟨rfl, by decide, by decide, rfl,
   rename_files_partial_failure mixedResolveManager [fileA] fileB [] rfl (by decide)
     (by decide) rfl⟩

end Rename
